import Mathlib

/-!
# Verification of the CoroGraph core engine against its specification

This development shallowly embeds the data model and algorithms of the
CoroGraph delta-stepping / priority-ordered graph framework:

* the CSR graph consumed by the engine (`CSR`);
* the SSSP algorithm adapter `SSSP_F` from `app/sssp/crg-sssp-perf.cpp`
  (`gatherFunc`, `filterFunc`, `applyWeight`);
* the priority-ordered edge-map engine (`engineRun`), modelled from the
  spec since `Executor_ForEach.h` is not part of the source tree;
* the graph partitioner (`partitionGraph`), modelled from the
  `partition()` walkthrough in `session.md` and the spec;
* the single-thread view of the OBIM work queue (`obimPush`/`obimPop2`),
  from the `Obim.h` excerpts in `session.md`;
* the connected-components label propagation `cc` from
  `app/cc/crg-cc-perf.cpp`.

Machine `uint32` values are embedded as `ℕ`; `MAX_NUM` is the sentinel
`2^32 - 1` and the one arithmetic operation that can wrap
(`applyWeight`) carries an explicit `% 2^32`.
-/

namespace Corograph

/-- `MAX_NUM`: sentinel "infinity" distance, `UINT32_MAX`. -/
def MAX_NUM : ℕ := 2 ^ 32 - 1

/-- `2^32`, the modulus of `uint32` arithmetic. -/
def U32 : ℕ := 2 ^ 32

/-- The CSR graph consumed by the engine: `numV` vertices, `offset[]`
indexing into the edge arrays, `ngh[]` destinations and `weightArr[]`
edge weights.  The arrays are embedded as total functions on `ℕ`
(out-of-range reads are irrelevant under the well-formedness
hypotheses used below). -/
structure CSR where
  numV : ℕ
  offset : ℕ → ℕ
  ngh : ℕ → ℕ
  weightArr : ℕ → ℕ

/-- The out-edge slice of vertex `v`: positions
`offset v ≤ e < offset (v+1)` of the CSR edge arrays, as
`(destination, weight)` pairs. -/
def adj (g : CSR) (v : ℕ) : List (ℕ × ℕ) :=
  (List.range' (g.offset v) (g.offset (v + 1) - g.offset v)).map
    (fun e => (g.ngh e, g.weightArr e))

/-- The out-neighbour slice of vertex `v` (destinations only), as read
by the CC kernel's inner loop over `graph.ngh[e]`. -/
def adjN (g : CSR) (v : ℕ) : List ℕ :=
  (List.range' (g.offset v) (g.offset (v + 1) - g.offset v)).map g.ngh

/-- Edges out of `v` (listed in `adj g v`) all lead to vertices below
`numV`; quantified only over source vertices below `numV`. -/
def EdgesValid (g : CSR) : Prop :=
  ∀ u < g.numV, ∀ p ∈ adj g u, p.1 < g.numV

/-! ## List access helpers

The distance / label arrays are embedded as `List ℕ` read through
`List.getD · · 0` and written through `List.set`. -/

theorem getD_set_self {l : List ℕ} {i a : ℕ} (h : i < l.length) :
    (l.set i a).getD i 0 = a := by
  simp [List.getD_eq_getElem?_getD, List.getElem?_set_self, h]

theorem getD_set_ne {l : List ℕ} {i j a : ℕ} (h : j ≠ i) :
    (l.set i a).getD j 0 = l.getD j 0 := by
  simp [List.getD_eq_getElem?_getD, List.getElem?_set_ne (by omega : i ≠ j)]

theorem getD_set_le {l : List ℕ} {i a x : ℕ}
    (h : a ≤ l.getD i 0) : (l.set i a).getD x 0 ≤ l.getD x 0 := by
  by_cases hx : x = i
  · subst hx
    by_cases hi : x < l.length
    · rw [getD_set_self hi]; exact h
    · rw [List.set_eq_of_length_le (by omega)]
  · rw [getD_set_ne hx]

theorem getD_oob {l : List ℕ} {i : ℕ} (h : l.length ≤ i) :
    l.getD i 0 = 0 := by
  simp [List.getD_eq_getElem?_getD, List.getElem?_eq_none h]

/-! ## C4 data: the SSSP algorithm adapter `SSSP_F`

From `app/sssp/crg-sssp-perf.cpp` lines 39-60.  The distance array
`vdata` is the explicit state. -/

/-- `SSSP_F::gatherFunc(updateVal, destId)`:
`if (updateVal < vdata[destId]) { vdata[destId] = updateVal; return true; }
return false;` — returns the flag together with the updated state. -/
def gatherFunc (vdata : List ℕ) (updateVal destId : ℕ) : Bool × List ℕ :=
  if updateVal < vdata.getD destId 0 then (true, vdata.set destId updateVal)
  else (false, vdata)

/-- `SSSP_F::filterFunc(src, dis)`: `return vdata[src] < dis;`
(`true` means the work item is stale and is skipped). -/
def filterFunc (vdata : List ℕ) (src dis : ℕ) : Bool :=
  decide (vdata.getD src 0 < dis)

/-- `SSSP_F::applyWeight(weight, updateVal)`: `return updateVal + weight;`
on `unsigned int`, hence modulo `2^32`. -/
def applyWeight (weight updateVal : ℕ) : ℕ :=
  (updateVal + weight) % U32

/-- A sequence of `gatherFunc` calls applied in order. -/
def gatherSeq (calls : List (ℕ × ℕ)) (vdata : List ℕ) : List ℕ :=
  calls.foldl (fun d c => (gatherFunc d c.1 c.2).2) vdata

theorem gatherFunc_decreases (vdata : List ℕ) (u i x : ℕ) :
    (gatherFunc vdata u i).2.getD x 0 ≤ vdata.getD x 0 := by
  unfold gatherFunc
  split
  · exact getD_set_le (by omega)
  · simp

theorem gatherFunc_length (vdata : List ℕ) (u i : ℕ) :
    (gatherFunc vdata u i).2.length = vdata.length := by
  unfold gatherFunc; split <;> simp

/-- After a `gatherFunc` call the value at `destId` is
`min updateVal (old value)` (for an in-range `destId`). -/
theorem gatherFunc_getD (vdata : List ℕ) (u i : ℕ) (h : i < vdata.length) :
    (gatherFunc vdata u i).2.getD i 0 = min u (vdata.getD i 0) := by
  unfold gatherFunc
  split
  · rw [getD_set_self h]; omega
  · dsimp only; omega

theorem gatherSeq_decreases (calls : List (ℕ × ℕ)) (vdata : List ℕ) (x : ℕ) :
    (gatherSeq calls vdata).getD x 0 ≤ vdata.getD x 0 := by
  induction calls generalizing vdata with
  | nil => simp [gatherSeq]
  | cons c cs ih =>
    calc (gatherSeq (c :: cs) vdata).getD x 0
        ≤ (gatherFunc vdata c.1 c.2).2.getD x 0 := ih _
      _ ≤ vdata.getD x 0 := gatherFunc_decreases _ _ _ _

/-- C4: `gatherFunc` applies the update exactly when it improves the
stored distance, reports exactly whether the state changed, and any
sequence of calls leaves every per-vertex distance no larger than
before.

For every call `SSSP_F::gatherFunc(updateVal, destId)` with `destId` in
range: if `updateVal < vdata[destId]` the state becomes
`vdata.set destId updateVal`, otherwise it is left unchanged; the
returned flag is `true` iff `updateVal < vdata[destId]`, which is also
iff the state changed; and any sequence of `gatherFunc` calls is
pointwise non-increasing on the distance array. -/
theorem gatherFunc_spec (vdata : List ℕ) (updateVal destId : ℕ)
    (h : destId < vdata.length) :
    (updateVal < vdata.getD destId 0 →
       (gatherFunc vdata updateVal destId).2 = vdata.set destId updateVal) ∧
    (¬ updateVal < vdata.getD destId 0 →
       (gatherFunc vdata updateVal destId).2 = vdata) ∧
    ((gatherFunc vdata updateVal destId).1 = true ↔
       updateVal < vdata.getD destId 0) ∧
    ((gatherFunc vdata updateVal destId).1 = true ↔
       (gatherFunc vdata updateVal destId).2 ≠ vdata) ∧
    (∀ calls : List (ℕ × ℕ), ∀ x,
       (gatherSeq calls vdata).getD x 0 ≤ vdata.getD x 0) := by
  have hchange : updateVal < vdata.getD destId 0 →
      vdata.set destId updateVal ≠ vdata := by
    intro hlt heq
    have h2 : (vdata.set destId updateVal).getD destId 0 = vdata.getD destId 0 := by
      rw [heq]
    rw [getD_set_self h] at h2
    omega
  refine ⟨?_, ?_, ?_, ?_, fun calls x => gatherSeq_decreases calls vdata x⟩
  · intro hlt; unfold gatherFunc; rw [if_pos hlt]
  · intro hge; unfold gatherFunc; rw [if_neg hge]
  · unfold gatherFunc
    split
    · rename_i hlt; simpa using hlt
    · rename_i hge; simpa using hge
  · unfold gatherFunc
    split
    · rename_i hlt
      simpa using hchange hlt
    · simp

/-- Witness for `gatherFunc_spec` at `vdata = [5, 7]`, `updateVal = 3`,
`destId = 1`. -/
theorem gatherFunc_spec_witness :
    (1 < ([5, 7] : List ℕ).length) ∧ (gatherFunc [5, 7] 3 1).1 = true :=
  ⟨by decide,
   ((gatherFunc_spec [5, 7] 3 1 (by decide)).2.2.1).mpr (by decide)⟩

/-! ## C5: partition sizing (`partition()` phase 1)

From the `partition()` excerpt in `session.md` (lines 298-310):
`g.numPart = _numPart; if(!_numPart) g.numPart = getActiveThreads()*4;`
`g.PartSize = (g.numV + g.numPart - 1) / g.numPart;`
`g.vtxPart[i] = i / g.PartSize;`. -/

/-- The partition count chosen by `partition(g, _numPart)`: the request,
or `4 × activeThreads` when the request is `0`. -/
def numPartOf (requested activeThreads : ℕ) : ℕ :=
  if requested = 0 then activeThreads * 4 else requested

/-- `PartSize = (numV + numPart - 1) / numPart` (ceiling division). -/
def partSizeOf (numV numPart : ℕ) : ℕ := (numV + numPart - 1) / numPart

/-- `vtxPart[i] = i / PartSize`: the partition a vertex is assigned to. -/
def vtxPartOf (partSize v : ℕ) : ℕ := v / partSize

/-- The `vtxPart[]` array written by `partition()`. -/
def vtxPartArr (numV partSize : ℕ) : List ℕ :=
  (List.range numV).map (fun i => vtxPartOf partSize i)

/-- C5: for `numV ≥ 1` and requested count `p ≥ 1`, `partition()` sets
`PartSize = ⌈numV / numPart⌉`, assigns vertex `v` to partition
`v / PartSize`, the bounds
`PartSize · numPart ≥ numV ≥ (PartSize - 1) · numPart + 1` hold, and a
requested count of `0` defaults to `4 × activeThreads`. -/
theorem partition_sizing (numV p a : ℕ) (h1 : 1 ≤ numV) (h2 : 1 ≤ p) :
    numPartOf p a = p ∧
    partSizeOf numV p = (numV + p - 1) / p ∧
    (∀ v < numV, (vtxPartArr numV (partSizeOf numV p)).getD v 0 =
       v / partSizeOf numV p) ∧
    partSizeOf numV p * p ≥ numV ∧
    numV ≥ (partSizeOf numV p - 1) * p + 1 ∧
    numPartOf 0 a = 4 * a := by
  have hp : numPartOf p a = p := by unfold numPartOf; rw [if_neg (by omega)]
  have hdm := Nat.div_add_mod (numV + p - 1) p
  have hmod := Nat.mod_lt (numV + p - 1) (show 0 < p by omega)
  have hq1 : 1 ≤ partSizeOf numV p := by
    unfold partSizeOf
    rw [Nat.le_div_iff_mul_le (by omega)]
    omega
  obtain ⟨q, hq⟩ : ∃ q, partSizeOf numV p = q := ⟨_, rfl⟩
  obtain ⟨t, ht⟩ : ∃ t, p * q = t := ⟨_, rfl⟩
  have hqp : q * p = t := by rw [Nat.mul_comm]; exact ht
  have hq1p : (q - 1) * p = t - p := by
    rw [Nat.sub_mul, one_mul, Nat.mul_comm q p, ht]
  unfold partSizeOf at hq
  rw [hq, ht] at hdm
  refine ⟨hp, rfl, ?_, ?_, ?_, by unfold numPartOf; simp [Nat.mul_comm]⟩
  · intro v hv
    unfold vtxPartArr vtxPartOf
    rw [List.getD_eq_getElem?_getD, List.getElem?_map]
    simp [List.getElem?_range hv]
  · show numV ≤ partSizeOf numV p * p
    unfold partSizeOf
    rw [hq, hqp]
    omega
  · show (partSizeOf numV p - 1) * p + 1 ≤ numV
    unfold partSizeOf
    rw [hq, hq1p]
    unfold partSizeOf at hq1
    rw [hq] at hq1
    omega

/-- Witness for `partition_sizing` at `numV = 5`, `p = 2`, `a = 3`:
`PartSize = 3` and the stated bounds hold. -/
theorem partition_sizing_witness :
    (1 ≤ 5 ∧ 1 ≤ 2) ∧ (partSizeOf 5 2 * 2 ≥ 5 ∧ 5 ≥ (partSizeOf 5 2 - 1) * 2 + 1) :=
  ⟨by decide,
   ⟨(partition_sizing 5 2 3 (by decide) (by decide)).2.2.2.1,
    (partition_sizing 5 2 3 (by decide) (by decide)).2.2.2.2.1⟩⟩

/-! ## C8: OBIM priority side, single-thread view

From the `Obim.h` excerpts in `session.md` (push, `pop2`, `slowPop2`).
With one worker thread the per-thread `flat_map` holds every bucket, so
it is embedded as an association list sorted by index; `current` is a
bucket pointer in C++ and is embedded as the index of the bucket it
points to.  `earliest` (`std::numeric_limits<Index>::min()` for the
unsigned `Index`) is `0`. -/

/-- A priority bucket's contents (one `Container`): the items it
currently holds. -/
abbrev Bucket := List (ℕ × ℕ)

/-- `updateLocalOrCreate`: make sure the bucket for index `i` exists in
the sorted local map. -/
def mapEnsure : List (ℕ × Bucket) → ℕ → List (ℕ × Bucket)
  | [], i => [(i, [])]
  | (k, b) :: rest, i =>
    if i < k then (i, []) :: (k, b) :: rest
    else if i = k then (k, b) :: rest
    else (k, b) :: mapEnsure rest i

/-- `C->push(val)`: push an item into the (existing) bucket for index
`i`; inserts the bucket if it is somehow absent. -/
def mapPush : List (ℕ × Bucket) → ℕ → ℕ × ℕ → List (ℕ × Bucket)
  | [], i, x => [(i, [x])]
  | (k, b) :: rest, i, x =>
    if i < k then (i, [x]) :: (k, b) :: rest
    else if i = k then (k, x :: b) :: rest
    else (k, b) :: mapPush rest i x

/-- `mapEnsure` followed by a push into the same bucket: a single
sorted insert. -/
def mapInsertItem : List (ℕ × Bucket) → ℕ → ℕ × ℕ → List (ℕ × Bucket)
  | [], i, x => [(i, [x])]
  | (k, b) :: rest, i, x =>
    if i < k then (i, [x]) :: (k, b) :: rest
    else if i = k then (k, x :: b) :: rest
    else (k, b) :: mapInsertItem rest i x

theorem mapPush_mapEnsure (m : List (ℕ × Bucket)) (i : ℕ) (x : ℕ × ℕ) :
    mapPush (mapEnsure m i) i x = mapInsertItem m i x := by
  induction m with
  | nil => simp [mapEnsure, mapPush, mapInsertItem]
  | cons kb rest ih =>
    obtain ⟨k, b⟩ := kb
    by_cases h1 : i < k
    · simp [mapEnsure, mapPush, mapInsertItem, h1]
    · by_cases h2 : i = k
      · subst h2
        simp [mapEnsure, mapPush, mapInsertItem, h1]
      · simp [mapEnsure, mapPush, mapInsertItem, h1, h2, ih]

/-- The bucket stored for index `i` (dereferencing the C++ container
pointer). -/
def mapLookup : List (ℕ × Bucket) → ℕ → Option Bucket
  | [], _ => none
  | (k, b) :: rest, i => if i = k then some b else mapLookup rest i

/-- `C->pop2()` on the bucket for index `i`: drop its first item. -/
def mapPopBucket : List (ℕ × Bucket) → ℕ → List (ℕ × Bucket)
  | [], _ => []
  | (k, b) :: rest, i =>
    if i = k then (k, b.tail) :: rest else (k, b) :: mapPopBucket rest i

/-- `OBIM::ThreadData`, the fields used by the priority side:
`local` (sorted bucket map), `curIndex`, `scanStart`, `current`. -/
structure ObimTD where
  localMap : List (ℕ × Bucket)
  curIndex : ℕ
  scanStart : ℕ
  current : Option ℕ

/-- `UpdateRequestIndexer`: `req.dist >> shift`. -/
def obimIndex (shift : ℕ) (r : ℕ × ℕ) : ℕ := r.2 >>> shift

/-- The initial per-thread state: `curIndex = scanStart = earliest = 0`,
no current bucket, empty local map. -/
def obimInit : ObimTD := ⟨[], 0, 0, none⟩

/-- `OBIM::push(val)`: fast path into the current bucket when the index
matches; otherwise find-or-create the bucket, lower `scanStart` and
`curIndex` if the new index compares lower, then push. -/
def obimPush (shift : ℕ) (td : ObimTD) (val : ℕ × ℕ) : ObimTD :=
  let index := obimIndex shift val
  if index = td.curIndex ∧ td.current.isSome = true then
    { td with localMap := mapPush td.localMap index val }
  else
    let m := mapEnsure td.localMap index
    let ss := if index < td.scanStart then index else td.scanStart
    let cc := if index < td.curIndex then (index, some index)
              else (td.curIndex, td.current)
    { localMap := mapPush m index val
      curIndex := cc.1
      scanStart := ss
      current := cc.2 }

/-- The scan loop of `slowPop2`: walk the (already lower-bounded) map
upward and pop from the first non-empty bucket. -/
def scanPop : List (ℕ × Bucket) → Option ((ℕ × ℕ) × ℕ)
  | [] => none
  | (k, b) :: rest =>
    match b with
    | [] => scanPop rest
    | x :: _ => some (x, k)

/-- `OBIM::slowPop2`: with one thread, `msS` is this thread's
`scanStart`; scan from `lower_bound(msS)` upward, popping the first
non-empty bucket and retargeting `current`/`curIndex`/`scanStart`. -/
def obimSlowPop2 (td : ObimTD) : Option (ℕ × ℕ) × ObimTD :=
  match scanPop (td.localMap.dropWhile (fun kv => kv.1 < td.scanStart)) with
  | none => (none, td)
  | some (x, k) =>
    (some x, { td with
               localMap := mapPopBucket td.localMap k
               curIndex := k
               scanStart := k
               current := some k })

/-- `OBIM::pop2`: try the current bucket, else fall back to
`slowPop2`. -/
def obimPop2 (td : ObimTD) : Option (ℕ × ℕ) × ObimTD :=
  match td.current with
  | some j =>
    match mapLookup td.localMap j with
    | some (x :: _) => (some x, { td with localMap := mapPopBucket td.localMap j })
    | _ => obimSlowPop2 td
  | none => obimSlowPop2 td

/-- A sequence of pushes. -/
def obimPushAll (shift : ℕ) (td : ObimTD) (l : List (ℕ × ℕ)) : ObimTD :=
  l.foldl (obimPush shift) td

theorem mapInsertItem_cons_lt {i k : ℕ} (h : i < k) (b : Bucket)
    (rest : List (ℕ × Bucket)) (x : ℕ × ℕ) :
    mapInsertItem ((k, b) :: rest) i x = (i, [x]) :: (k, b) :: rest := by
  simp only [mapInsertItem]; rw [if_pos h]

theorem mapInsertItem_cons_eq (k : ℕ) (b : Bucket)
    (rest : List (ℕ × Bucket)) (x : ℕ × ℕ) :
    mapInsertItem ((k, b) :: rest) k x = (k, x :: b) :: rest := by
  simp [mapInsertItem]

theorem mapInsertItem_cons_gt {i k : ℕ} (h : k < i) (b : Bucket)
    (rest : List (ℕ × Bucket)) (x : ℕ × ℕ) :
    mapInsertItem ((k, b) :: rest) i x = (k, b) :: mapInsertItem rest i x := by
  simp only [mapInsertItem]
  rw [if_neg (by omega), if_neg (by omega)]

theorem mapInsertItem_keys (m : List (ℕ × Bucket)) (i : ℕ) (x : ℕ × ℕ) :
    ∀ y ∈ (mapInsertItem m i x).map Prod.fst, y = i ∨ y ∈ m.map Prod.fst := by
  induction m with
  | nil =>
    intro y hy
    rw [show mapInsertItem [] i x = [(i, [x])] from rfl] at hy
    simp only [List.map_cons, List.map_nil, List.mem_singleton] at hy
    exact Or.inl hy
  | cons kb rest ih =>
    obtain ⟨k, b⟩ := kb
    intro y hy
    rcases Nat.lt_trichotomy i k with h | h | h
    · rw [mapInsertItem_cons_lt h b rest x] at hy
      simp only [List.map_cons, List.mem_cons] at hy ⊢
      tauto
    · subst h
      rw [mapInsertItem_cons_eq i b rest x] at hy
      simp only [List.map_cons, List.mem_cons] at hy ⊢
      tauto
    · rw [mapInsertItem_cons_gt h b rest x] at hy
      simp only [List.map_cons, List.mem_cons] at hy ⊢
      rcases hy with rfl | hy
      · tauto
      · rcases ih y hy with h' | h' <;> tauto

theorem mapInsertItem_sorted (m : List (ℕ × Bucket)) (i : ℕ) (x : ℕ × ℕ)
    (hs : (m.map Prod.fst).Pairwise (· < ·)) :
    ((mapInsertItem m i x).map Prod.fst).Pairwise (· < ·) := by
  induction m with
  | nil => rw [show mapInsertItem [] i x = [(i, [x])] from rfl]; simp
  | cons kb rest ih =>
    obtain ⟨k, b⟩ := kb
    simp only [List.map_cons, List.pairwise_cons] at hs
    obtain ⟨hk, hrest⟩ := hs
    rcases Nat.lt_trichotomy i k with h | h | h
    · rw [mapInsertItem_cons_lt h b rest x]
      simp only [List.map_cons, List.pairwise_cons]
      refine ⟨?_, hk, hrest⟩
      intro y hy
      rcases List.mem_cons.mp hy with rfl | hy'
      · exact h
      · exact lt_trans h (hk y hy')
    · subst h
      rw [mapInsertItem_cons_eq i b rest x]
      simp only [List.map_cons, List.pairwise_cons]
      exact ⟨hk, hrest⟩
    · rw [mapInsertItem_cons_gt h b rest x]
      simp only [List.map_cons, List.pairwise_cons]
      refine ⟨?_, ih hrest⟩
      intro y hy
      rcases mapInsertItem_keys rest i x y hy with rfl | hy'
      · exact h
      · exact hk y hy'

theorem mapInsertItem_mem (m : List (ℕ × Bucket)) (i : ℕ) (x : ℕ × ℕ) :
    ∀ kb ∈ mapInsertItem m i x,
      kb ∈ m ∨ (kb.1 = i ∧ (kb.2 = [x] ∨ ∃ b, (i, b) ∈ m ∧ kb.2 = x :: b)) := by
  induction m with
  | nil =>
    intro kb hkb
    rw [show mapInsertItem [] i x = [(i, [x])] from rfl] at hkb
    rcases List.mem_singleton.mp hkb with rfl
    exact Or.inr ⟨rfl, Or.inl rfl⟩
  | cons kb0 rest ih =>
    obtain ⟨k, b⟩ := kb0
    intro kb hkb
    rcases Nat.lt_trichotomy i k with h | h | h
    · rw [mapInsertItem_cons_lt h b rest x] at hkb
      rcases List.mem_cons.mp hkb with rfl | hkb'
      · exact Or.inr ⟨rfl, Or.inl rfl⟩
      · exact Or.inl hkb'
    · subst h
      rw [mapInsertItem_cons_eq i b rest x] at hkb
      rcases List.mem_cons.mp hkb with rfl | hkb'
      · exact Or.inr ⟨rfl, Or.inr ⟨b, List.mem_cons_self _ _, rfl⟩⟩
      · exact Or.inl (List.mem_cons_of_mem _ hkb')
    · rw [mapInsertItem_cons_gt h b rest x] at hkb
      rcases List.mem_cons.mp hkb with rfl | hkb'
      · exact Or.inl (List.mem_cons_self _ _)
      · rcases ih kb hkb' with h' | ⟨hi, h'⟩
        · exact Or.inl (List.mem_cons_of_mem _ h')
        · refine Or.inr ⟨hi, ?_⟩
          rcases h' with h' | ⟨b', hb', h'⟩
          · exact Or.inl h'
          · exact Or.inr ⟨b', List.mem_cons_of_mem _ hb', h'⟩

theorem mapInsertItem_old_keys (m : List (ℕ × Bucket)) (i : ℕ) (x : ℕ × ℕ) :
    ∀ kb ∈ m, ∃ kb' ∈ mapInsertItem m i x, kb'.1 = kb.1 := by
  induction m with
  | nil => intro kb hkb; exact absurd hkb (List.not_mem_nil kb)
  | cons kb0 rest ih =>
    obtain ⟨k, b⟩ := kb0
    intro kb hkb
    rcases Nat.lt_trichotomy i k with h | h | h
    · rw [mapInsertItem_cons_lt h b rest x]
      exact ⟨kb, List.mem_cons_of_mem _ hkb, rfl⟩
    · subst h
      rw [mapInsertItem_cons_eq i b rest x]
      rcases List.mem_cons.mp hkb with rfl | hkb'
      · exact ⟨(i, x :: b), List.mem_cons_self _ _, rfl⟩
      · exact ⟨kb, List.mem_cons_of_mem _ hkb', rfl⟩
    · rw [mapInsertItem_cons_gt h b rest x]
      rcases List.mem_cons.mp hkb with rfl | hkb'
      · exact ⟨(k, b), List.mem_cons_self _ _, rfl⟩
      · obtain ⟨kb', hkb'', he⟩ := ih kb hkb'
        exact ⟨kb', List.mem_cons_of_mem _ hkb'', he⟩

theorem mapInsertItem_new_key (m : List (ℕ × Bucket)) (i : ℕ) (x : ℕ × ℕ) :
    ∃ kb ∈ mapInsertItem m i x, kb.1 = i := by
  induction m with
  | nil =>
    exact ⟨(i, [x]), by rw [show mapInsertItem [] i x = [(i, [x])] from rfl]; simp, rfl⟩
  | cons kb0 rest ih =>
    obtain ⟨k, b⟩ := kb0
    rcases Nat.lt_trichotomy i k with h | h | h
    · exact ⟨(i, [x]), by rw [mapInsertItem_cons_lt h b rest x]; simp, rfl⟩
    · subst h
      exact ⟨(i, x :: b), by rw [mapInsertItem_cons_eq i b rest x]; simp, rfl⟩
    · obtain ⟨kb, hkb, he⟩ := ih
      exact ⟨kb, by rw [mapInsertItem_cons_gt h b rest x]
                    exact List.mem_cons_of_mem _ hkb, he⟩

/-- Invariant after a sequence `S` of pushes from `obimInit` with one
thread: `curIndex` and `scanStart` still sit at `earliest = 0`, there is
no current bucket, the local map is sorted with every bucket non-empty,
buckets hold exactly the pushed items with the matching index, and
every pushed item has a bucket. -/
structure ObimInv (shift : ℕ) (S : List (ℕ × ℕ)) (td : ObimTD) : Prop where
  cur0 : td.curIndex = 0
  ss0 : td.scanStart = 0
  curNone : td.current = none
  sorted : (td.localMap.map Prod.fst).Pairwise (· < ·)
  nonnil : ∀ kb ∈ td.localMap, kb.2 ≠ []
  content : ∀ kb ∈ td.localMap, ∀ x ∈ kb.2, x ∈ S ∧ obimIndex shift x = kb.1
  complete : ∀ y ∈ S, ∃ kb ∈ td.localMap, kb.1 = obimIndex shift y

theorem obimPush_of_none (shift : ℕ) (td : ObimTD) (y : ℕ × ℕ)
    (h1 : td.current = none) (h2 : td.curIndex = 0) (h3 : td.scanStart = 0) :
    obimPush shift td y =
      ⟨mapInsertItem td.localMap (obimIndex shift y) y, 0, 0, none⟩ := by
  unfold obimPush
  rw [if_neg (by simp [h1])]
  simp [h1, h2, h3, mapPush_mapEnsure]

theorem obimInv_push (shift : ℕ) (S : List (ℕ × ℕ)) (td : ObimTD)
    (h : ObimInv shift S td) (y : ℕ × ℕ) :
    ObimInv shift (S ++ [y]) (obimPush shift td y) := by
  rw [obimPush_of_none shift td y h.curNone h.cur0 h.ss0]
  refine ⟨rfl, rfl, rfl, mapInsertItem_sorted _ _ _ h.sorted, ?_, ?_, ?_⟩
  · intro kb hkb
    rcases mapInsertItem_mem _ _ _ kb hkb with hm | ⟨_, hb | ⟨b, _, hb⟩⟩
    · exact h.nonnil kb hm
    · simp [hb]
    · simp [hb]
  · intro kb hkb x hx
    rcases mapInsertItem_mem _ _ _ kb hkb with hm | ⟨hi, hb | ⟨b, hbm, hb⟩⟩
    · obtain ⟨hxS, hxi⟩ := h.content kb hm x hx
      exact ⟨by simp [hxS], hxi⟩
    · rw [hb] at hx
      simp only [List.mem_singleton] at hx
      subst hx
      exact ⟨by simp, hi.symm ▸ rfl⟩
    · rw [hb] at hx
      rcases List.mem_cons.mp hx with rfl | hx'
      · exact ⟨by simp, hi.symm ▸ rfl⟩
      · obtain ⟨hxS, hxi⟩ := h.content (obimIndex shift y, b) hbm x hx'
        exact ⟨by simp [hxS], by rw [hxi, hi]⟩
  · intro z hz
    rcases List.mem_append.mp hz with hzS | hzy
    · obtain ⟨kb, hkb, he⟩ := h.complete z hzS
      obtain ⟨kb', hkb', he'⟩ := mapInsertItem_old_keys td.localMap
        (obimIndex shift y) y kb hkb
      exact ⟨kb', hkb', he'.trans he⟩
    · simp only [List.mem_singleton] at hzy
      subst hzy
      exact mapInsertItem_new_key _ _ _

theorem obimInv_pushAll (shift : ℕ) (l : List (ℕ × ℕ)) :
    ∀ S td, ObimInv shift S td →
      ObimInv shift (S ++ l) (obimPushAll shift td l) := by
  induction l with
  | nil => intro S td h; simpa [obimPushAll] using h
  | cons y l' ih =>
    intro S td h
    have h1 := obimInv_push shift S td h y
    have h2 := ih (S ++ [y]) (obimPush shift td y) h1
    simpa [obimPushAll, List.foldl_cons] using h2

theorem obimInv_init (shift : ℕ) : ObimInv shift [] obimInit := by
  refine ⟨rfl, rfl, rfl, by simp [obimInit], by simp [obimInit],
    by simp [obimInit], by simp⟩

theorem dropWhile_lt_zero (m : List (ℕ × Bucket)) :
    m.dropWhile (fun kv => kv.1 < 0) = m := by
  cases m with
  | nil => rfl
  | cons kb rest => simp [List.dropWhile]

/-- C8: with a single worker thread, after any sequence of pushes into
a fresh OBIM, the first `pop2` (which falls through to `slowPop2`)
returns an item whose priority index is the lowest among all existing
(non-empty) buckets — every bucket created by a push is non-empty, so
the popped item's index is minimal among all pushed items. -/
theorem obim_first_pop_lowest (shift : ℕ) (l : List (ℕ × ℕ)) (hl : l ≠ []) :
    ∃ x, (obimPop2 (obimPushAll shift obimInit l)).1 = some x ∧ x ∈ l ∧
      ∀ y ∈ l, obimIndex shift x ≤ obimIndex shift y := by
  have hinv : ObimInv shift l (obimPushAll shift obimInit l) := by
    simpa using obimInv_pushAll shift l [] obimInit (obimInv_init shift)
  set td := obimPushAll shift obimInit l with htd
  have hne : td.localMap ≠ [] := by
    obtain ⟨y, hy⟩ := List.exists_mem_of_ne_nil l hl
    obtain ⟨kb, hkb, -⟩ := hinv.complete y hy
    intro h0
    rw [h0] at hkb
    exact absurd hkb (List.not_mem_nil kb)
  obtain ⟨⟨k0, b0⟩, rest, hmap⟩ : ∃ kb rest, td.localMap = kb :: rest := by
    cases hm : td.localMap with
    | nil => exact absurd hm hne
    | cons kb rest => exact ⟨kb, rest, rfl⟩
  obtain ⟨x0, b0', hb0⟩ : ∃ x0 b0', b0 = x0 :: b0' := by
    have := hinv.nonnil (k0, b0) (by rw [hmap]; simp)
    cases hb : b0 with
    | nil => exact absurd hb this
    | cons x0 b0' => exact ⟨x0, b0', rfl⟩
  have hpop : (obimPop2 td).1 = some x0 := by
    unfold obimPop2
    rw [hinv.curNone]
    unfold obimSlowPop2
    rw [hinv.ss0, dropWhile_lt_zero, hmap, hb0]
    rfl
  refine ⟨x0, hpop, ?_, ?_⟩
  · exact (hinv.content (k0, b0) (by rw [hmap]; simp) x0 (by rw [hb0]; simp)).1
  · intro y hy
    have hx0 : obimIndex shift x0 = k0 :=
      (hinv.content (k0, b0) (by rw [hmap]; simp) x0 (by rw [hb0]; simp)).2
    obtain ⟨kb, hkb, he⟩ := hinv.complete y hy
    rw [hmap] at hkb
    rcases List.mem_cons.mp hkb with rfl | hkb'
    · omega
    · have hlt : k0 < kb.1 := by
        have hs := hinv.sorted
        rw [hmap] at hs
        simp only [List.map_cons, List.pairwise_cons] at hs
        exact hs.1 kb.1 (List.mem_map_of_mem Prod.fst hkb')
      omega

/-- Witness for `obim_first_pop_lowest`: pushing `(5,9), (7,2), (3,4)`
with `shift = 1` (bucket indices `4, 1, 2`), the first pop returns an
item from bucket `1`. -/
theorem obim_first_pop_lowest_witness :
    ∃ x, (obimPop2 (obimPushAll 1 obimInit [(5, 9), (7, 2), (3, 4)])).1 = some x ∧
      x ∈ [(5, 9), (7, 2), (3, 4)] ∧
      ∀ y ∈ [(5, 9), (7, 2), (3, 4)], obimIndex 1 x ≤ obimIndex 1 y :=
  obim_first_pop_lowest 1 [(5, 9), (7, 2), (3, 4)] (by decide)

/-! ## C9 / C10: connected-components label propagation

From `app/cc/crg-cc-perf.cpp` lines 44-73.  `do_all` over all vertices
is embedded as a sequential in-order fold (one interleaving of the
parallel loop); `galois::atomicMin` is the `min`-update on the label
array; `GReduceLogicalOr changed` is the boolean threaded through the
fold. -/

/-- The per-vertex CC state (`LNode`): `comp_current` and `comp_old`
arrays. -/
structure CCState where
  comp_current : List ℕ
  comp_old : List ℕ

/-- `galois::atomicMin(ddata.comp_current, label_new)` on position
`dst` of the label array. -/
def atomicMinAt (c : List ℕ) (dst lab : ℕ) : List ℕ :=
  c.set dst (min (c.getD dst 0) lab)

/-- The neighbour loop of `cc`: `for e in [offset[src], offset[src+1])`
apply `atomicMin(comp_current[ngh[e]], label_new)`. -/
def ccNeighborFold (ds : List ℕ) (lab : ℕ) (c : List ℕ) : List ℕ :=
  ds.foldl (fun c d => atomicMinAt c d lab) c

/-- The body of `cc`'s `do_all` at vertex `src`:
`if (comp_old[src] > comp_current[src]) { comp_old[src] = comp_current[src];
label_new = comp_current[src]; changed = true; for each ngh: atomicMin; }`. -/
def ccVertex (g : CSR) (src : ℕ) (sc : CCState × Bool) : CCState × Bool :=
  if sc.1.comp_old.getD src 0 > sc.1.comp_current.getD src 0 then
    (⟨ccNeighborFold (adjN g src) (sc.1.comp_current.getD src 0)
        sc.1.comp_current,
      sc.1.comp_old.set src (sc.1.comp_current.getD src 0)⟩, true)
  else sc

/-- One round of `cc`: the `do_all` over all vertices, with the
`changed` flag reset to `false` at the start. -/
def ccRound (g : CSR) (s : CCState) : CCState × Bool :=
  (List.range g.numV).foldl (fun acc v => ccVertex g v acc) (s, false)

/-- The do-while loop of `cc`, with explicit fuel: run a round, repeat
while `changed.reduce()` holds. -/
def ccLoop (g : CSR) : ℕ → CCState → Option CCState
  | 0, _ => none
  | fuel + 1, s =>
    let r := ccRound g s
    if r.2 then ccLoop g fuel r.1 else some r.1

/-- The initialization in `main`: `comp_current[v] = v`,
`comp_old[v] = MAX_NUM`. -/
def ccInit (g : CSR) : CCState :=
  ⟨List.range g.numV, List.replicate g.numV MAX_NUM⟩

/-- Fuel exceeding the termination measure of the initial state. -/
def ccFuel (g : CSR) : ℕ := g.numV * (MAX_NUM + g.numV) + 1

/-- `cc(graph, tt, label)` run to completion from the initialization. -/
def cc (g : CSR) : Option CCState := ccLoop g (ccFuel g) (ccInit g)

/-- Termination measure: the sum of all `comp_old` and `comp_current`
entries. -/
def ccMeasure (g : CSR) (s : CCState) : ℕ :=
  ((List.range g.numV).map
    (fun v => s.comp_old.getD v 0 + s.comp_current.getD v 0)).sum

theorem getD_replicate {n a v : ℕ} (h : v < n) :
    (List.replicate n a).getD v 0 = a := by
  rw [List.getD_eq_getElem?_getD, List.getElem?_replicate, if_pos h]
  rfl

theorem getD_range {n v : ℕ} (h : v < n) :
    (List.range n).getD v 0 = v := by
  rw [List.getD_eq_getElem?_getD, List.getElem?_range h]
  rfl

theorem ccNeighborFold_length (ds : List ℕ) (lab : ℕ) (c : List ℕ) :
    (ccNeighborFold ds lab c).length = c.length := by
  induction ds generalizing c with
  | nil => rfl
  | cons d ds ih =>
    rw [ccNeighborFold, List.foldl_cons]
    rw [show ∀ c', (ds.foldl (fun c d => atomicMinAt c d lab) c') =
      ccNeighborFold ds lab c' from fun _ => rfl]
    rw [ih, atomicMinAt, List.length_set]

theorem ccNeighborFold_le (ds : List ℕ) (lab : ℕ) (c : List ℕ) (x : ℕ) :
    (ccNeighborFold ds lab c).getD x 0 ≤ c.getD x 0 := by
  induction ds generalizing c with
  | nil => simp [ccNeighborFold]
  | cons d ds ih =>
    rw [ccNeighborFold, List.foldl_cons]
    rw [show ∀ c', (ds.foldl (fun c d => atomicMinAt c d lab) c') =
      ccNeighborFold ds lab c' from fun _ => rfl]
    calc (ccNeighborFold ds lab (atomicMinAt c d lab)).getD x 0
        ≤ (atomicMinAt c d lab).getD x 0 := ih _
      _ ≤ c.getD x 0 := getD_set_le (min_le_left _ _)

theorem ccNeighborFold_le_label (ds : List ℕ) (lab : ℕ) (c : List ℕ) :
    ∀ d ∈ ds, (ccNeighborFold ds lab c).getD d 0 ≤ lab := by
  induction ds generalizing c with
  | nil => simp
  | cons d0 ds ih =>
    intro d hd
    rw [ccNeighborFold, List.foldl_cons]
    rw [show ∀ c', (ds.foldl (fun c d => atomicMinAt c d lab) c') =
      ccNeighborFold ds lab c' from fun _ => rfl]
    rcases List.mem_cons.mp hd with rfl | hd'
    · by_cases hr : d < c.length
      · calc (ccNeighborFold ds lab (atomicMinAt c d lab)).getD d 0
            ≤ (atomicMinAt c d lab).getD d 0 := ccNeighborFold_le _ _ _ _
          _ = min (c.getD d 0) lab := getD_set_self hr
          _ ≤ lab := min_le_right _ _
      · have h1 : (atomicMinAt c d lab).length ≤ d := by
          rw [atomicMinAt, List.length_set]; omega
        calc (ccNeighborFold ds lab (atomicMinAt c d lab)).getD d 0
            ≤ (atomicMinAt c d lab).getD d 0 := ccNeighborFold_le _ _ _ _
          _ = 0 := getD_oob h1
          _ ≤ lab := Nat.zero_le _
    · exact ih _ d hd'

theorem ccNeighborFold_values (ds : List ℕ) (lab : ℕ) (c : List ℕ) (x : ℕ) :
    (ccNeighborFold ds lab c).getD x 0 = c.getD x 0 ∨
      (x ∈ ds ∧ (ccNeighborFold ds lab c).getD x 0 = lab) := by
  induction ds generalizing c with
  | nil => simp [ccNeighborFold]
  | cons d ds ih =>
    rw [ccNeighborFold, List.foldl_cons]
    rw [show ∀ c', (ds.foldl (fun c d => atomicMinAt c d lab) c') =
      ccNeighborFold ds lab c' from fun _ => rfl]
    rcases ih (atomicMinAt c d lab) with h | ⟨hx, h⟩
    · by_cases hxd : x = d
      · subst hxd
        by_cases hr : x < c.length
        · rw [h, atomicMinAt, getD_set_self hr]
          rcases Nat.le_total (c.getD x 0) lab with h' | h'
          · left; omega
          · right; exact ⟨List.mem_cons_self _ _, by omega⟩
        · left
          rw [h, atomicMinAt, List.set_eq_of_length_le (by omega)]
      · left
        rw [h, atomicMinAt, getD_set_ne hxd]
    · right
      exact ⟨List.mem_cons_of_mem _ hx, h⟩

/-- Both label arrays have length `numV`. -/
structure CCWF (g : CSR) (s : CCState) : Prop where
  len_cur : s.comp_current.length = g.numV
  len_old : s.comp_old.length = g.numV

/-- The fold of `ccVertex` over an arbitrary vertex list. -/
def ccFold (g : CSR) (l : List ℕ) (sc : CCState × Bool) : CCState × Bool :=
  l.foldl (fun acc v => ccVertex g v acc) sc

theorem ccRound_eq_ccFold (g : CSR) (s : CCState) :
    ccRound g s = ccFold g (List.range g.numV) (s, false) := rfl

theorem ccVertex_spec (g : CSR) (src : ℕ) (sc : CCState × Bool) :
    ccVertex g src sc = sc ∨
    (sc.1.comp_current.getD src 0 < sc.1.comp_old.getD src 0 ∧
     ccVertex g src sc =
       (⟨ccNeighborFold (adjN g src) (sc.1.comp_current.getD src 0)
           sc.1.comp_current,
         sc.1.comp_old.set src (sc.1.comp_current.getD src 0)⟩, true)) := by
  unfold ccVertex
  split
  · rename_i hlt
    exact Or.inr ⟨by omega, rfl⟩
  · exact Or.inl rfl

theorem ccVertex_wf (g : CSR) (src : ℕ) (sc : CCState × Bool)
    (h : CCWF g sc.1) : CCWF g (ccVertex g src sc).1 := by
  rcases ccVertex_spec g src sc with he | ⟨-, he⟩
  · rw [he]; exact h
  · rw [he]
    exact ⟨by rw [ccNeighborFold_length]; exact h.len_cur,
           by rw [List.length_set]; exact h.len_old⟩

theorem ccVertex_le (g : CSR) (src : ℕ) (sc : CCState × Bool) :
    (∀ x, (ccVertex g src sc).1.comp_current.getD x 0 ≤
       sc.1.comp_current.getD x 0) ∧
    (∀ x, (ccVertex g src sc).1.comp_old.getD x 0 ≤
       sc.1.comp_old.getD x 0) := by
  rcases ccVertex_spec g src sc with he | ⟨hlt, he⟩
  · rw [he]; exact ⟨fun _ => le_refl _, fun _ => le_refl _⟩
  · rw [he]
    exact ⟨fun x => ccNeighborFold_le _ _ _ x,
           fun x => getD_set_le (by omega)⟩

theorem ccVertex_flag (g : CSR) (src : ℕ) (sc : CCState × Bool)
    (h : sc.2 = true) : (ccVertex g src sc).2 = true := by
  rcases ccVertex_spec g src sc with he | ⟨-, he⟩ <;> rw [he]
  exact h

theorem ccVertex_false (g : CSR) (src : ℕ) (sc : CCState × Bool)
    (h : (ccVertex g src sc).2 = false) :
    ccVertex g src sc = sc ∧ sc.2 = false ∧
      ¬ sc.1.comp_current.getD src 0 < sc.1.comp_old.getD src 0 := by
  unfold ccVertex at h ⊢
  split at h
  · exact absurd h (by simp)
  · rename_i hcond
    exact ⟨by rw [if_neg hcond], h, by omega⟩

theorem ccMeasure_mono (g : CSR) {s s' : CCState}
    (h1 : ∀ x, s'.comp_current.getD x 0 ≤ s.comp_current.getD x 0)
    (h2 : ∀ x, s'.comp_old.getD x 0 ≤ s.comp_old.getD x 0) :
    ccMeasure g s' ≤ ccMeasure g s := by
  unfold ccMeasure
  refine List.sum_le_sum ?_
  intro v _
  have := h1 v
  have := h2 v
  omega

theorem ccMeasure_strict (g : CSR) {s s' : CCState} (v : ℕ)
    (hv : v < g.numV)
    (h1 : ∀ x, s'.comp_current.getD x 0 ≤ s.comp_current.getD x 0)
    (h2 : ∀ x, s'.comp_old.getD x 0 ≤ s.comp_old.getD x 0)
    (hstrict : s'.comp_old.getD v 0 < s.comp_old.getD v 0) :
    ccMeasure g s' < ccMeasure g s := by
  obtain ⟨l1, l2, hsplit⟩ := List.append_of_mem (List.mem_range.mpr hv)
  unfold ccMeasure
  rw [hsplit, List.map_append, List.sum_append, List.map_cons, List.sum_cons,
      List.map_append, List.sum_append, List.map_cons, List.sum_cons]
  have hA : ((l1.map fun v => s'.comp_old.getD v 0 + s'.comp_current.getD v 0)).sum ≤
      ((l1.map fun v => s.comp_old.getD v 0 + s.comp_current.getD v 0)).sum := by
    refine List.sum_le_sum ?_
    intro u _
    have := h1 u
    have := h2 u
    omega
  have hB : ((l2.map fun v => s'.comp_old.getD v 0 + s'.comp_current.getD v 0)).sum ≤
      ((l2.map fun v => s.comp_old.getD v 0 + s.comp_current.getD v 0)).sum := by
    refine List.sum_le_sum ?_
    intro u _
    have := h1 u
    have := h2 u
    omega
  have hv1 := h1 v
  omega

theorem ccVertex_measure (g : CSR) (src : ℕ) (sc : CCState × Bool)
    (hwf : CCWF g sc.1) (hsrc : src < g.numV) :
    ccMeasure g (ccVertex g src sc).1 ≤ ccMeasure g sc.1 ∧
    (ccVertex g src sc = sc ∨
       ccMeasure g (ccVertex g src sc).1 < ccMeasure g sc.1) := by
  rcases ccVertex_spec g src sc with he | ⟨hlt, he⟩
  · rw [he]; exact ⟨le_refl _, Or.inl rfl⟩
  · have hle := ccVertex_le g src sc
    have hstrict : (ccVertex g src sc).1.comp_old.getD src 0 <
        sc.1.comp_old.getD src 0 := by
      rw [he]
      have hr : src < sc.1.comp_old.length := by rw [hwf.len_old]; exact hsrc
      show (sc.1.comp_old.set src (sc.1.comp_current.getD src 0)).getD src 0 <
        sc.1.comp_old.getD src 0
      rw [getD_set_self hr]
      exact hlt
    have := ccMeasure_strict g src hsrc hle.1 hle.2 hstrict
    exact ⟨le_of_lt this, Or.inr this⟩

theorem ccFold_spec (g : CSR) (l : List ℕ) (hl : ∀ v ∈ l, v < g.numV) :
    ∀ sc : CCState × Bool, CCWF g sc.1 →
      CCWF g (ccFold g l sc).1 ∧
      (∀ x, (ccFold g l sc).1.comp_current.getD x 0 ≤
         sc.1.comp_current.getD x 0) ∧
      (∀ x, (ccFold g l sc).1.comp_old.getD x 0 ≤ sc.1.comp_old.getD x 0) ∧
      ccMeasure g (ccFold g l sc).1 ≤ ccMeasure g sc.1 ∧
      ((ccFold g l sc).2 = sc.2 ∨
         ccMeasure g (ccFold g l sc).1 < ccMeasure g sc.1) ∧
      ((ccFold g l sc).2 = false → ccFold g l sc = sc ∧
         ∀ v ∈ l, ¬ sc.1.comp_current.getD v 0 < sc.1.comp_old.getD v 0) := by
  induction l with
  | nil =>
    intro sc hwf
    refine ⟨hwf, fun _ => le_refl _, fun _ => le_refl _, le_refl _,
      Or.inl rfl, fun _ => ⟨rfl, by simp⟩⟩
  | cons v l' ih =>
    intro sc hwf
    have hv : v < g.numV := hl v (List.mem_cons_self _ _)
    have hl' : ∀ u ∈ l', u < g.numV := fun u hu => hl u (List.mem_cons_of_mem _ hu)
    have hfold : ccFold g (v :: l') sc = ccFold g l' (ccVertex g v sc) := rfl
    set sc1 := ccVertex g v sc with hsc1
    have hwf1 : CCWF g sc1.1 := ccVertex_wf g v sc hwf
    obtain ⟨iwf, icur, iold, imeas, iflag, ifalse⟩ := ih hl' sc1 hwf1
    have hvle := ccVertex_le g v sc
    have hvm := ccVertex_measure g v sc hwf hv
    rw [hfold]
    refine ⟨iwf, ?_, ?_, le_trans imeas hvm.1, ?_, ?_⟩
    · intro x; exact le_trans (icur x) (hvle.1 x)
    · intro x; exact le_trans (iold x) (hvle.2 x)
    · have hvm1 : ccMeasure g sc1.1 ≤ ccMeasure g sc.1 := by
        rw [hsc1]; exact hvm.1
      rcases hvm.2 with heq | hlt
      · rcases iflag with hf | hm
        · left; rw [hf, hsc1, heq]
        · right; exact lt_of_lt_of_le hm hvm1
      · right
        refine lt_of_le_of_lt imeas ?_
        rw [hsc1]
        exact hlt
    · intro hfl
      obtain ⟨hfix, hcond⟩ := ifalse hfl
      have hflag1 : sc1.2 = false := by rw [← hfix, hfl]
      obtain ⟨hvfix, hscfl, hvcond⟩ := ccVertex_false g v sc hflag1
      rw [← hsc1] at hvfix
      constructor
      · rw [hfix, hvfix]
      · intro u hu
        rcases List.mem_cons.mp hu with rfl | hu'
        · exact hvcond
        · have := hcond u hu'
          rw [hvfix] at this
          exact this

theorem ccLoop_isSome (g : CSR) :
    ∀ fuel s, CCWF g s → ccMeasure g s < fuel →
      (ccLoop g fuel s).isSome = true := by
  intro fuel
  induction fuel with
  | zero => intro s _ h; omega
  | succ fuel ih =>
    intro s hwf hm
    have hl : ∀ v ∈ List.range g.numV, v < g.numV := by
      intro v hv; exact List.mem_range.mp hv
    obtain ⟨rwf, -, -, rmeas, rflag, rfalse⟩ :=
      ccFold_spec g (List.range g.numV) hl (s, false) hwf
    rw [← ccRound_eq_ccFold] at rwf rmeas rflag rfalse
    show ((let r := ccRound g s;
      if r.2 then ccLoop g fuel r.1 else some r.1)).isSome = true
    by_cases hr : (ccRound g s).2 = true
    · simp only [hr, if_true]
      rcases rflag with hf | hm'
      · rw [hr] at hf; exact absurd hf.symm (by simp)
      · have hm2 : ccMeasure g (ccRound g s).1 < ccMeasure g s := by
          simpa using hm'
        exact ih (ccRound g s).1 rwf (by omega)
    · simp only [Bool.not_eq_true] at hr
      simp [hr]

/-- C10: for every finite input graph, the do-while loop of `cc()`
terminates from the initialization `comp_current[v] = v`,
`comp_old[v] = MAX_NUM`: a round reports a change only when some
`comp_old` entry strictly decreases, the label sums never increase, so
the loop runs out of changed rounds within `ccFuel` iterations. -/
theorem cc_terminates (g : CSR) : (cc g).isSome = true := by
  have hwf : CCWF g (ccInit g) := ⟨by simp [ccInit], by simp [ccInit]⟩
  refine ccLoop_isSome g (ccFuel g) (ccInit g) hwf ?_
  have hbound : ccMeasure g (ccInit g) ≤ g.numV * (MAX_NUM + g.numV) := by
    unfold ccMeasure
    have hlen : ((List.range g.numV).map
        (fun v => (ccInit g).comp_old.getD v 0 +
          (ccInit g).comp_current.getD v 0)).length = g.numV := by
      simp
    calc ((List.range g.numV).map
        (fun v => (ccInit g).comp_old.getD v 0 +
          (ccInit g).comp_current.getD v 0)).sum
        ≤ ((List.range g.numV).map
            (fun v => (ccInit g).comp_old.getD v 0 +
              (ccInit g).comp_current.getD v 0)).length • (MAX_NUM + g.numV) := by
          refine List.sum_le_card_nsmul _ _ ?_
          intro x hx
          obtain ⟨v, hv, rfl⟩ := List.mem_map.mp hx
          have hvn : v < g.numV := List.mem_range.mp hv
          have h1 : (ccInit g).comp_old.getD v 0 = MAX_NUM := by
            unfold ccInit
            exact getD_replicate hvn
          have h2 : (ccInit g).comp_current.getD v 0 = v := by
            unfold ccInit
            exact getD_range hvn
          rw [h1, h2]
          omega
      _ = g.numV * (MAX_NUM + g.numV) := by rw [hlen, smul_eq_mul]
  unfold ccFuel
  omega

/-- One adjacency step: `b` is an out-neighbour of `a`. -/
def adjRel (g : CSR) (a b : ℕ) : Prop := b ∈ adjN g a

/-- Connectivity: reflexive-transitive closure of adjacency.  For a
symmetric graph this reaches exactly `a`'s component. -/
def Conn (g : CSR) : ℕ → ℕ → Prop := Relation.ReflTransGen (adjRel g)

/-- The input graph is symmetric (undirected), checked below `numV`. -/
def SymBelow (g : CSR) : Prop := ∀ a < g.numV, ∀ b ∈ adjN g a, a ∈ adjN g b

/-- Out-neighbours of vertices below `numV` are below `numV`. -/
def NghValid (g : CSR) : Prop := ∀ a < g.numV, ∀ b ∈ adjN g a, b < g.numV

theorem conn_lt (g : CSR) (hval : NghValid g) {a b : ℕ}
    (h : Conn g a b) (ha : a < g.numV) : b < g.numV := by
  induction h with
  | refl => exact ha
  | tail _ hstep ih => exact hval _ ih _ hstep

/-- Execution invariant of the CC loop: labels only shrink within the
component (every label is the id of a vertex connected to its owner,
and no larger than the owner), and whenever `comp_old` has caught up
with `comp_current` the vertex has already broadcast its label to all
neighbours. -/
structure CCInv (g : CSR) (s : CCState) : Prop where
  wf : CCWF g s
  le_id : ∀ v < g.numV, s.comp_current.getD v 0 ≤ v
  conn : ∀ v < g.numV, Conn g v (s.comp_current.getD v 0)
  prop : ∀ v < g.numV, s.comp_old.getD v 0 ≤ s.comp_current.getD v 0 →
    s.comp_old.getD v 0 = s.comp_current.getD v 0 ∧
    ∀ d ∈ adjN g v, s.comp_current.getD d 0 ≤ s.comp_current.getD v 0

theorem ccVertex_inv (g : CSR) (hsym : SymBelow g) (w : ℕ)
    (hw : w < g.numV) (sc : CCState × Bool) (hinv : CCInv g sc.1) :
    CCInv g (ccVertex g w sc).1 := by
  rcases ccVertex_spec g w sc with he | ⟨hlt, he⟩
  · rw [he]; exact hinv
  · rw [he]
    dsimp only
    set L := sc.1.comp_current.getD w 0 with hL
    have hwlen : w < sc.1.comp_old.length := by
      rw [hinv.wf.len_old]; exact hw
    have hvals := fun x => ccNeighborFold_values (adjN g w) L sc.1.comp_current x
    have hle := fun x => ccNeighborFold_le (adjN g w) L sc.1.comp_current x
    refine ⟨⟨by rw [ccNeighborFold_length]; exact hinv.wf.len_cur,
             by rw [List.length_set]; exact hinv.wf.len_old⟩, ?_, ?_, ?_⟩
    · intro v hv
      exact le_trans (hle v) (hinv.le_id v hv)
    · intro v hv
      rcases hvals v with heq | ⟨hmem, heq⟩
      · rw [heq]; exact hinv.conn v hv
      · rw [heq]
        have h1 : Conn g v w :=
          Relation.ReflTransGen.single (hsym w hw v hmem)
        exact Relation.ReflTransGen.trans h1 (hinv.conn w hw)
    · intro v hv hle'
      replace hle' : (sc.1.comp_old.set w L).getD v 0 ≤
          (ccNeighborFold (adjN g w) L sc.1.comp_current).getD v 0 := hle'
      show (sc.1.comp_old.set w L).getD v 0 =
          (ccNeighborFold (adjN g w) L sc.1.comp_current).getD v 0 ∧
        ∀ d ∈ adjN g v,
          (ccNeighborFold (adjN g w) L sc.1.comp_current).getD d 0 ≤
          (ccNeighborFold (adjN g w) L sc.1.comp_current).getD v 0
      by_cases hvw : v = w
      · subst hvw
        have hold : (sc.1.comp_old.set v L).getD v 0 = L := getD_set_self hwlen
        have hcur : (ccNeighborFold (adjN g v) L sc.1.comp_current).getD v 0 = L := by
          rcases hvals v with heq | ⟨-, heq⟩
          · rw [heq, ← hL]
          · rw [heq]
        refine ⟨by rw [hold, hcur], ?_⟩
        intro d hd
        rw [hcur]
        exact ccNeighborFold_le_label (adjN g v) L sc.1.comp_current d hd
      · have hold : (sc.1.comp_old.set w L).getD v 0 = sc.1.comp_old.getD v 0 :=
          getD_set_ne hvw
        rw [hold] at hle' ⊢
        have hle2 : sc.1.comp_old.getD v 0 ≤ sc.1.comp_current.getD v 0 :=
          le_trans hle' (hle v)
        obtain ⟨hpe, hpn⟩ := hinv.prop v hv hle2
        have hcurv : (ccNeighborFold (adjN g w) L sc.1.comp_current).getD v 0 =
            sc.1.comp_current.getD v 0 := by
          have h1 := hle v
          omega
        refine ⟨by rw [hcurv, hpe], ?_⟩
        intro d hd
        rw [hcurv]
        exact le_trans (hle d) (hpn d hd)

theorem ccFold_inv (g : CSR) (hsym : SymBelow g) (l : List ℕ)
    (hl : ∀ v ∈ l, v < g.numV) :
    ∀ sc : CCState × Bool, CCInv g sc.1 → CCInv g (ccFold g l sc).1 := by
  induction l with
  | nil => intro sc h; exact h
  | cons v l' ih =>
    intro sc h
    have hv : v < g.numV := hl v (List.mem_cons_self _ _)
    have hl' : ∀ u ∈ l', u < g.numV := fun u hu => hl u (List.mem_cons_of_mem _ hu)
    exact ih hl' (ccVertex g v sc) (ccVertex_inv g hsym v hv sc h)

theorem ccLoop_final (g : CSR) (hsym : SymBelow g) :
    ∀ fuel s s', CCInv g s → ccLoop g fuel s = some s' →
      CCInv g s' ∧
      ∀ v < g.numV, ¬ s'.comp_current.getD v 0 < s'.comp_old.getD v 0 := by
  intro fuel
  induction fuel with
  | zero => intro s s' _ h; exact absurd h (by simp [ccLoop])
  | succ fuel ih =>
    intro s s' hinv hrun
    have hl : ∀ v ∈ List.range g.numV, v < g.numV := by
      intro v hv; exact List.mem_range.mp hv
    have hrinv : CCInv g (ccRound g s).1 := by
      rw [ccRound_eq_ccFold]
      exact ccFold_inv g hsym (List.range g.numV) hl (s, false) hinv
    show _ ∧ _
    rw [show ccLoop g (fuel + 1) s =
      (if (ccRound g s).2 then ccLoop g fuel (ccRound g s).1
       else some (ccRound g s).1) from rfl] at hrun
    cases hr : (ccRound g s).2 with
    | true =>
      rw [hr, if_pos rfl] at hrun
      exact ih (ccRound g s).1 s' hrinv hrun
    | false =>
      rw [hr] at hrun
      simp only [Bool.false_eq_true, if_false] at hrun
      obtain rfl : (ccRound g s).1 = s' := by
        injection hrun
      refine ⟨hrinv, ?_⟩
      obtain ⟨-, -, -, -, -, rfalse⟩ :=
        ccFold_spec g (List.range g.numV) hl (s, false)
          ⟨hinv.wf.len_cur, hinv.wf.len_old⟩
      rw [← ccRound_eq_ccFold] at rfalse
      obtain ⟨hfix, hcond⟩ := rfalse hr
      intro v hv
      have := hcond v (List.mem_range.mpr hv)
      rw [hfix]
      exact this

theorem cc_stable_labels (g : CSR) (hsym : SymBelow g) (hval : NghValid g)
    {s : CCState}
    (hinv : CCInv g s)
    (hstab : ∀ v < g.numV, ¬ s.comp_current.getD v 0 < s.comp_old.getD v 0)
    {a b : ℕ} (ha : a < g.numV) (h : Conn g a b) :
    s.comp_current.getD b 0 = s.comp_current.getD a 0 := by
  have hE : ∀ v < g.numV, ∀ d ∈ adjN g v,
      s.comp_current.getD d 0 ≤ s.comp_current.getD v 0 := by
    intro v hv d hd
    have h1 := hstab v hv
    exact (hinv.prop v hv (by omega)).2 d hd
  induction h using Relation.ReflTransGen.head_induction_on with
  | refl => rfl
  | head hstep hconn ih =>
    rename_i a' c
    have ha' : a' < g.numV := ha
    have hc : c < g.numV := hval a' ha' c hstep
    have h1 : s.comp_current.getD c 0 ≤ s.comp_current.getD a' 0 :=
      hE a' ha' c hstep
    have h2 : s.comp_current.getD a' 0 ≤ s.comp_current.getD c 0 :=
      hE c hc a' (hsym a' ha' c hstep)
    rw [ih hc]
    omega

/-- C9: for a symmetric input graph, when `cc()` terminates from the
initialization `comp_current[v] = v`, `comp_old[v] = MAX_NUM`, the
final `comp_current` of every vertex is the least vertex id connected
to it (the minimum id of its component). -/
theorem cc_component_min (g : CSR) (hsym : SymBelow g) (hval : NghValid g)
    (hnum : g.numV ≤ MAX_NUM) (s : CCState) (hrun : cc g = some s) :
    ∀ v < g.numV, IsLeast {u | Conn g v u} (s.comp_current.getD v 0) := by
  have hinv0 : CCInv g (ccInit g) := by
    refine ⟨⟨by simp [ccInit], by simp [ccInit]⟩, ?_, ?_, ?_⟩
    · intro v hv
      rw [show (ccInit g).comp_current = List.range g.numV from rfl,
        getD_range hv]
    · intro v hv
      rw [show (ccInit g).comp_current = List.range g.numV from rfl,
        getD_range hv]
      exact Relation.ReflTransGen.refl
    · intro v hv hle
      rw [show (ccInit g).comp_current = List.range g.numV from rfl,
        getD_range hv,
        show (ccInit g).comp_old = List.replicate g.numV MAX_NUM from rfl,
        getD_replicate hv] at hle
      omega
  obtain ⟨hinv, hstab⟩ := ccLoop_final g hsym (ccFuel g) (ccInit g) s hinv0 hrun
  intro v hv
  constructor
  · exact hinv.conn v hv
  · intro u hu
    have hconst := cc_stable_labels g hsym hval hinv hstab hv hu
    have hun : u < g.numV := conn_lt g hval hu hv
    have := hinv.le_id u hun
    omega

/-- Two disjoint triangles `{0,1,2}` and `{3,4,5}` as a symmetric CSR
graph (each undirected edge stored in both directions). -/
def gTri : CSR :=
  ⟨6,
   fun i => ([0, 2, 4, 6, 8, 10, 12] : List ℕ).getD i 0,
   fun e => ([1, 2, 0, 2, 0, 1, 4, 5, 3, 5, 3, 4] : List ℕ).getD e 0,
   fun _ => 0⟩

/-- Witness for `cc_component_min` on the two disjoint triangles: `cc`
terminates with exactly the two labels `0` and `3`, and label `3` is
the least id of vertex 3's component. -/
theorem cc_component_min_witness :
    cc gTri = some ⟨[0, 0, 0, 3, 3, 3], [0, 0, 0, 3, 3, 3]⟩ ∧
    IsLeast {u | Conn gTri 3 u} 3 :=
  ⟨rfl,
   cc_component_min gTri
     (by unfold SymBelow; decide)
     (by unfold NghValid; decide)
     (by unfold MAX_NUM; decide)
     ⟨[0, 0, 0, 3, 3, 3], [0, 0, 0, 3, 3, 3]⟩ rfl 3 (by decide)⟩

/-! ## C1: the delta-stepping engine and Dijkstra convergence

Modelled from the spec: `asyncPriorityEdgeMap` / `Executor_ForEach.h`
(the Scatter / Sync / Gather loop of spec §4.6-4.7 and the
`session.md` walkthrough) is not among the source files, so the engine
is embedded as a sequential work-list loop: pop an item `(u, d)`,
drop it when `filterFunc` reports it stale, otherwise relax every
out-edge of `u` through `applyWeight` and `gatherFunc`, pushing an
item for every improved destination; terminate when the work list is
empty.  The algorithm capabilities (`filterFunc`, `applyWeight`,
`gatherFunc`) are the `SSSP_F` members embedded above.  OBIM's weak
priority order only affects which pending item is popped next; the
claim's final-distance property is proved for the runs this FIFO
model produces. -/

/-- Engine state: the distance array and the pending work items
`(vertex, distance)`. -/
structure EngineState where
  dist : List ℕ
  wl : List (ℕ × ℕ)

/-- Relax the edge list `es` of a vertex whose popped item carried
distance `d`: for each `(v, w)`, apply `gatherFunc (applyWeight w d) v`
and push `(v, newVal)` when the gather improved the state. -/
def relaxEdges (d : ℕ) (es : List (ℕ × ℕ)) (dist : List ℕ)
    (acc : List (ℕ × ℕ)) : List ℕ × List (ℕ × ℕ) :=
  match es with
  | [] => (dist, acc)
  | (v, w) :: es' =>
    let c := applyWeight w d
    let r := gatherFunc dist c v
    relaxEdges d es' r.2 (if r.1 then acc ++ [(v, c)] else acc)

/-- The engine loop with explicit fuel: returns the final distance
array when the work list empties. -/
def engineRun (g : CSR) : ℕ → EngineState → Option (List ℕ)
  | 0, _ => none
  | fuel + 1, s =>
    match s.wl with
    | [] => some s.dist
    | (u, d) :: rest =>
      if filterFunc s.dist u d then engineRun g fuel ⟨s.dist, rest⟩
      else
        let r := relaxEdges d (adj g u) s.dist []
        engineRun g fuel ⟨r.1, rest ++ r.2⟩

/-- The initialization used by `deltaStepAlgo`'s callers:
`distance[v] = MAX_NUM`, `distance[startNode] = 0`, initial frontier
`{(source, 0)}`. -/
def initState (g : CSR) (src : ℕ) : EngineState :=
  ⟨(List.replicate g.numV MAX_NUM).set src 0, [(src, 0)]⟩

/-- Weighted reachability: `ReachW g src v d` iff some path from `src`
to `v` has total weight `d`. -/
inductive ReachW (g : CSR) (src : ℕ) : ℕ → ℕ → Prop where
  | refl : ReachW g src src 0
  | step {u d v w} : ReachW g src u d → (v, w) ∈ adj g u →
      ReachW g src v (d + w)

/-- `v` is reachable from `src`. -/
def Reachable (g : CSR) (src v : ℕ) : Prop := ∃ d, ReachW g src v d

/-- `d` is the Dijkstra shortest-path distance from `src` to `v`: the
least total path weight. -/
def IsDijkstraDist (g : CSR) (src v d : ℕ) : Prop :=
  IsLeast {dd | ReachW g src v dd} d

/-- No `uint32` wrap occurs while relaxing: every path weight that can
be carried by a live work item, plus any out-edge weight, stays below
`2^32`. -/
def NoWrap (g : CSR) (src : ℕ) : Prop :=
  ∀ u d, ReachW g src u d → d < MAX_NUM → ∀ p ∈ adj g u, d + p.2 < U32

theorem reachW_lt (g : CSR) (src : ℕ) (hval : EdgesValid g)
    (hsrc : src < g.numV) {v d : ℕ} (h : ReachW g src v d) : v < g.numV := by
  induction h with
  | refl => exact hsrc
  | step _ hp ih => exact hval _ ih _ hp

theorem relaxEdges_spec (d : ℕ) (es : List (ℕ × ℕ)) :
    ∀ dist acc,
      (relaxEdges d es dist acc).1.length = dist.length ∧
      (∀ x, (relaxEdges d es dist acc).1.getD x 0 ≤ dist.getD x 0) ∧
      (∀ x, (relaxEdges d es dist acc).1.getD x 0 = dist.getD x 0 ∨
        (x, (relaxEdges d es dist acc).1.getD x 0) ∈ (relaxEdges d es dist acc).2) ∧
      (∀ q ∈ (relaxEdges d es dist acc).2, q ∈ acc ∨
        ∃ p ∈ es, q = (p.1, applyWeight p.2 d) ∧
          applyWeight p.2 d < dist.getD p.1 0 ∧
          (relaxEdges d es dist acc).1.getD p.1 0 ≤ applyWeight p.2 d) ∧
      (∀ p ∈ es, (relaxEdges d es dist acc).1.getD p.1 0 ≤ applyWeight p.2 d) ∧
      (∀ q ∈ acc, q ∈ (relaxEdges d es dist acc).2) := by
  induction es with
  | nil =>
    intro dist acc
    exact ⟨rfl, fun _ => le_refl _, fun _ => Or.inl rfl,
      fun q hq => Or.inl hq, by simp, fun q hq => hq⟩
  | cons pw es' ih =>
    intro dist acc
    obtain ⟨v, w⟩ := pw
    have hrw : relaxEdges d ((v, w) :: es') dist acc =
        relaxEdges d es' (gatherFunc dist (applyWeight w d) v).2
          (if (gatherFunc dist (applyWeight w d) v).1 then
            acc ++ [(v, applyWeight w d)] else acc) := rfl
    set c := applyWeight w d with hc
    by_cases hch : c < dist.getD v 0
    · have hg1 : (gatherFunc dist c v).1 = true := by
        unfold gatherFunc; rw [if_pos hch]
      have hg2 : (gatherFunc dist c v).2 = dist.set v c := by
        unfold gatherFunc; rw [if_pos hch]
      have hvlen : v < dist.length := by
        by_contra hlen
        rw [getD_oob (by omega)] at hch
        omega
      rw [hrw, hg1, hg2, if_pos rfl]
      set dist1 := dist.set v c with hdist1
      set acc1 := acc ++ [(v, c)] with hacc1
      obtain ⟨ilen, ile, ival, ipush, iedge, iacc⟩ := ih dist1 acc1
      have hd1v : dist1.getD v 0 = c := by
        rw [hdist1]; exact getD_set_self hvlen
      have hd1le : ∀ x, dist1.getD x 0 ≤ dist.getD x 0 := by
        intro x
        rw [hdist1]
        exact getD_set_le (by omega)
      refine ⟨by rw [ilen, hdist1, List.length_set], ?_, ?_, ?_, ?_, ?_⟩
      · intro x
        exact le_trans (ile x) (hd1le x)
      · intro x
        rcases ival x with he | hm
        · by_cases hxv : x = v
          · subst hxv
            right
            rw [he, hd1v]
            exact iacc _ (by rw [hacc1]; simp)
          · left
            rw [he, hdist1, getD_set_ne hxv]
        · right; exact hm
      · intro q hq
        rcases ipush q hq with hin | ⟨p, hp, hqe, hlt, hle⟩
        · rw [hacc1] at hin
          rcases List.mem_append.mp hin with hin' | hin'
          · exact Or.inl hin'
          · right
            refine ⟨(v, w), List.mem_cons_self _ _, ?_, ?_, ?_⟩
            · simpa using hin'
            · exact hch
            · have h1 := ile v
              rw [hd1v] at h1
              exact h1
        · right
          exact ⟨p, List.mem_cons_of_mem _ hp, hqe,
            lt_of_lt_of_le hlt (hd1le p.1), hle⟩
      · intro p hp
        rcases List.mem_cons.mp hp with rfl | hp'
        · have h1 := ile v
          rw [hd1v] at h1
          simpa using h1
        · exact iedge p hp'
      · intro q hq
        exact iacc q (by rw [hacc1]; simp [hq])
    · have hg1 : (gatherFunc dist c v).1 = false := by
        unfold gatherFunc; rw [if_neg hch]
      have hg2 : (gatherFunc dist c v).2 = dist := by
        unfold gatherFunc; rw [if_neg hch]
      rw [hrw, hg1, hg2, if_neg (by simp)]
      obtain ⟨ilen, ile, ival, ipush, iedge, iacc⟩ := ih dist acc
      refine ⟨ilen, ile, ival, ?_, ?_, iacc⟩
      · intro q hq
        rcases ipush q hq with hin | ⟨p, hp, hqe, hlt, hle⟩
        · exact Or.inl hin
        · exact Or.inr ⟨p, List.mem_cons_of_mem _ hp, hqe, hlt, hle⟩
      · intro p hp
        rcases List.mem_cons.mp hp with rfl | hp'
        · have h1 : dist.getD v 0 ≤ c := by omega
          simpa using le_trans (ile v) h1
        · exact iedge p hp'

/-- Execution invariant of the engine: `distance[startNode]` stays `0`,
every finite distance is certified by a path, work items carry path
weights no smaller than the current distance of their vertex, and every
vertex with a finite distance either still has a live work item at that
distance or has already relaxed all its out-edges. -/
structure EInv (g : CSR) (src : ℕ) (s : EngineState) : Prop where
  len : s.dist.length = g.numV
  src0 : s.dist.getD src 0 = 0
  le_max : ∀ v < g.numV, s.dist.getD v 0 ≤ MAX_NUM
  reach : ∀ v < g.numV, s.dist.getD v 0 < MAX_NUM →
    ReachW g src v (s.dist.getD v 0)
  item_le : ∀ p ∈ s.wl, s.dist.getD p.1 0 ≤ p.2
  item_cert : ∀ p ∈ s.wl, ReachW g src p.1 p.2 ∧ p.1 < g.numV ∧ p.2 < MAX_NUM
  closure : ∀ u < g.numV, s.dist.getD u 0 < MAX_NUM →
    (u, s.dist.getD u 0) ∈ s.wl ∨
    ∀ p ∈ adj g u, s.dist.getD p.1 0 ≤ s.dist.getD u 0 + p.2

theorem EInv_skip (g : CSR) (src : ℕ) (dist : List ℕ) (u d : ℕ)
    (rest : List (ℕ × ℕ)) (hinv : EInv g src ⟨dist, (u, d) :: rest⟩)
    (hfil : dist.getD u 0 < d) : EInv g src ⟨dist, rest⟩ := by
  refine ⟨hinv.len, hinv.src0, hinv.le_max, hinv.reach, ?_, ?_, ?_⟩
  · intro p hp; exact hinv.item_le p (List.mem_cons_of_mem _ hp)
  · intro p hp; exact hinv.item_cert p (List.mem_cons_of_mem _ hp)
  · intro x hx hxm
    rcases hinv.closure x hx hxm with hin | hcl
    · rcases List.mem_cons.mp hin with heq | hin'
      · have h1 : x = u := congrArg Prod.fst heq
        have h2 : dist.getD x 0 = d := congrArg Prod.snd heq
        subst h1
        omega
      · exact Or.inl hin'
    · exact Or.inr hcl

theorem EInv_relax (g : CSR) (src : ℕ) (hval : EdgesValid g)
    (hnw : NoWrap g src) (dist : List ℕ) (u d : ℕ) (rest : List (ℕ × ℕ))
    (hinv : EInv g src ⟨dist, (u, d) :: rest⟩)
    (hfil : ¬ dist.getD u 0 < d) :
    EInv g src ⟨(relaxEdges d (adj g u) dist []).1,
      rest ++ (relaxEdges d (adj g u) dist []).2⟩ := by
  obtain ⟨hlen, hle, hvals, hpush, hedge, -⟩ :=
    relaxEdges_spec d (adj g u) dist []
  obtain ⟨hcert_u, hu, hdm⟩ := hinv.item_cert (u, d) (List.mem_cons_self _ _)
  have hdu : dist.getD u 0 = d := by
    have h1 : dist.getD u 0 ≤ d := hinv.item_le (u, d) (List.mem_cons_self _ _)
    omega
  have happ : ∀ p ∈ adj g u, applyWeight p.2 d = d + p.2 := by
    intro p hp
    have := hnw u d hcert_u hdm p hp
    unfold applyWeight
    exact Nat.mod_eq_of_lt this
  have hpush' : ∀ q ∈ (relaxEdges d (adj g u) dist []).2,
      ∃ p ∈ adj g u, q = (p.1, d + p.2) ∧ d + p.2 < dist.getD p.1 0 ∧
        (relaxEdges d (adj g u) dist []).1.getD p.1 0 ≤ d + p.2 := by
    intro q hq
    rcases hpush q hq with hin | ⟨p, hp, hqe, hlt, hle'⟩
    · exact absurd hin (List.not_mem_nil q)
    · rw [happ p hp] at hqe hlt hle'
      exact ⟨p, hp, hqe, hlt, hle'⟩
  refine ⟨by rw [hlen]; exact hinv.len, ?_, ?_, ?_, ?_, ?_, ?_⟩
  · show (relaxEdges d (adj g u) dist []).1.getD src 0 = 0
    have h0 : dist.getD src 0 = 0 := hinv.src0
    have h2 := hle src
    omega
  · intro v hv
    exact le_trans (hle v) (hinv.le_max v hv)
  · intro v hv hvm
    rcases hvals v with he | hm
    · rw [he] at hvm ⊢
      exact hinv.reach v hv hvm
    · obtain ⟨p, hp, hqe, -, -⟩ := hpush' _ hm
      have h1 : v = p.1 := congrArg Prod.fst hqe
      have h2 : (relaxEdges d (adj g u) dist []).1.getD v 0 = d + p.2 :=
        congrArg Prod.snd hqe
      rw [h2, h1]
      exact ReachW.step hcert_u (by rw [← h1]; rw [h1]; exact hp)
  · intro q hq
    rcases List.mem_append.mp hq with hin | hin
    · exact le_trans (hle q.1) (hinv.item_le q (List.mem_cons_of_mem _ hin))
    · obtain ⟨p, hp, hqe, -, hle'⟩ := hpush' q hin
      rw [hqe]
      exact hle'
  · intro q hq
    rcases List.mem_append.mp hq with hin | hin
    · exact hinv.item_cert q (List.mem_cons_of_mem _ hin)
    · obtain ⟨p, hp, hqe, hlt, -⟩ := hpush' q hin
      have hp1 : p.1 < g.numV := hval u hu p hp
      rw [hqe]
      refine ⟨ReachW.step hcert_u hp, hp1, ?_⟩
      show d + p.2 < MAX_NUM
      have h9 : dist.getD p.1 0 ≤ MAX_NUM := hinv.le_max p.1 hp1
      omega
  · intro x hx hxm
    by_cases hxu : x = u
    · subst hxu
      right
      have hRx : (relaxEdges d (adj g x) dist []).1.getD x 0 = d := by
        rcases hvals x with he | hm
        · rw [he, hdu]
        · obtain ⟨p, hp, hqe, hlt, -⟩ := hpush' _ hm
          have h1x : x = p.1 := congrArg Prod.fst hqe
          rw [← h1x, hdu] at hlt
          omega
      intro p hp
      rw [hRx]
      have := hedge p hp
      rw [happ p hp] at this
      exact this
    · rcases hvals x with he | hm
      · rw [he] at hxm ⊢
        rcases hinv.closure x hx hxm with hin | hcl
        · rcases List.mem_cons.mp hin with heq | hin'
          · exact absurd (congrArg Prod.fst heq) hxu
          · exact Or.inl (List.mem_append.mpr (Or.inl hin'))
        · right
          intro p hp
          exact le_trans (hle p.1) (hcl p hp)
      · exact Or.inl (List.mem_append.mpr (Or.inr hm))

theorem engineRun_inv (g : CSR) (src : ℕ) (hval : EdgesValid g)
    (hnw : NoWrap g src) :
    ∀ fuel s dist, EInv g src s → engineRun g fuel s = some dist →
      EInv g src ⟨dist, []⟩ := by
  intro fuel
  induction fuel with
  | zero =>
    intro s dist _ h
    exact absurd h (by simp [engineRun])
  | succ fuel ih =>
    intro s dist hinv hrun
    obtain ⟨sd, swl⟩ := s
    cases swl with
    | nil =>
      have h1 : engineRun g (fuel + 1) ⟨sd, []⟩ = some sd := rfl
      rw [h1] at hrun
      obtain rfl := Option.some.inj hrun
      exact hinv
    | cons pd rest =>
      obtain ⟨u, d⟩ := pd
      have hstep : engineRun g (fuel + 1) ⟨sd, (u, d) :: rest⟩ =
          if filterFunc sd u d then engineRun g fuel ⟨sd, rest⟩
          else engineRun g fuel ⟨(relaxEdges d (adj g u) sd []).1,
            rest ++ (relaxEdges d (adj g u) sd []).2⟩ := rfl
      by_cases hfil : sd.getD u 0 < d
      · rw [hstep,
          if_pos (show filterFunc sd u d = true by
            unfold filterFunc; exact decide_eq_true hfil)] at hrun
        exact ih _ dist (EInv_skip g src sd u d rest hinv hfil) hrun
      · rw [hstep,
          if_neg (show ¬ filterFunc sd u d = true by
            unfold filterFunc; simpa using hfil)] at hrun
        exact ih _ dist (EInv_relax g src hval hnw sd u d rest hinv hfil) hrun

theorem EInv_init (g : CSR) (src : ℕ) (hsrc : src < g.numV) :
    EInv g src (initState g src) := by
  have hlenrep : (List.replicate g.numV MAX_NUM).length = g.numV :=
    List.length_replicate _ _
  have hsrclen : src < (List.replicate g.numV MAX_NUM).length := by omega
  have hv0 : ((List.replicate g.numV MAX_NUM).set src 0).getD src 0 = 0 :=
    getD_set_self hsrclen
  have hvM : ∀ v < g.numV, v ≠ src →
      ((List.replicate g.numV MAX_NUM).set src 0).getD v 0 = MAX_NUM := by
    intro v hv hne
    rw [getD_set_ne hne, getD_replicate hv]
  have hmax0 : 0 < MAX_NUM := by unfold MAX_NUM; norm_num
  refine ⟨by simp [initState], hv0, ?_, ?_, ?_, ?_, ?_⟩
  · intro v hv
    show ((List.replicate g.numV MAX_NUM).set src 0).getD v 0 ≤ MAX_NUM
    by_cases hne : v = src
    · subst hne; rw [hv0]; omega
    · rw [hvM v hv hne]
  · intro v hv hvm
    replace hvm : ((List.replicate g.numV MAX_NUM).set src 0).getD v 0 <
      MAX_NUM := hvm
    show ReachW g src v (((List.replicate g.numV MAX_NUM).set src 0).getD v 0)
    by_cases hne : v = src
    · subst hne; rw [hv0]; exact ReachW.refl
    · rw [hvM v hv hne] at hvm; omega
  · intro p hp
    replace hp : p ∈ [(src, 0)] := hp
    rcases List.mem_singleton.mp hp with rfl
    show ((List.replicate g.numV MAX_NUM).set src 0).getD src 0 ≤ 0
    rw [hv0]
  · intro p hp
    replace hp : p ∈ [(src, 0)] := hp
    rcases List.mem_singleton.mp hp with rfl
    exact ⟨ReachW.refl, hsrc, hmax0⟩
  · intro v hv hvm
    replace hvm : ((List.replicate g.numV MAX_NUM).set src 0).getD v 0 <
      MAX_NUM := hvm
    by_cases hne : v = src
    · subst hne
      left
      show (v, ((List.replicate g.numV MAX_NUM).set v 0).getD v 0) ∈
        [((v : ℕ), (0 : ℕ))]
      rw [hv0]
      exact List.mem_singleton.mpr rfl
    · rw [hvM v hv hne] at hvm; omega

/-- C1: for every graph with valid, wrap-free non-negative weights,
when the delta-stepping engine (modelled from the spec as a sequential
work-list relaxation loop over `SSSP_F`) runs to termination from
`distance[startNode] = 0` and `MAX_NUM` elsewhere, the final distance
of every reachable vertex is the Dijkstra shortest-path distance
(provided the shortest path weight is below the `MAX_NUM` sentinel),
and the distance of every unreachable vertex is `MAX_NUM`. -/
theorem deltaStepAlgo_dijkstra (g : CSR) (src fuel : ℕ) (dist : List ℕ)
    (hsrc : src < g.numV) (hval : EdgesValid g) (hnw : NoWrap g src)
    (hfin : ∀ v, Reachable g src v → ∃ dd, ReachW g src v dd ∧ dd < MAX_NUM)
    (hrun : engineRun g fuel (initState g src) = some dist) :
    ∀ v < g.numV,
      (Reachable g src v → IsDijkstraDist g src v (dist.getD v 0)) ∧
      (¬ Reachable g src v → dist.getD v 0 = MAX_NUM) := by
  have hinv := engineRun_inv g src hval hnw fuel _ dist
    (EInv_init g src hsrc) hrun
  have hub : ∀ v dd, ReachW g src v dd → dd < MAX_NUM →
      dist.getD v 0 ≤ dd := by
    intro v dd h
    induction h with
    | refl =>
      intro _
      have h0 : dist.getD src 0 = 0 := hinv.src0
      omega
    | step hr hp ih =>
      rename_i u d' v' w
      intro hlt
      have hd' : d' < MAX_NUM := by omega
      have h1 := ih hd'
      have hu : u < g.numV := reachW_lt g src hval hsrc hr
      have h2 : dist.getD u 0 < MAX_NUM := lt_of_le_of_lt h1 hd'
      have h2' : (⟨dist, []⟩ : EngineState).dist.getD u 0 < MAX_NUM := h2
      rcases hinv.closure u hu h2' with hin | hcl
      · exact absurd hin (List.not_mem_nil _)
      · have h3 : dist.getD v' 0 ≤ dist.getD u 0 + w := hcl (v', w) hp
        omega
  intro v hv
  constructor
  · intro hreach
    obtain ⟨d0, hd0, hd0lt⟩ := hfin v hreach
    have hle2 : dist.getD v 0 ≤ d0 := hub v d0 hd0 hd0lt
    have hvmax : dist.getD v 0 < MAX_NUM := lt_of_le_of_lt hle2 hd0lt
    refine ⟨hinv.reach v hv hvmax, ?_⟩
    intro dd hdd
    by_cases hddm : dd < MAX_NUM
    · exact hub v dd hdd hddm
    · have h9 : dist.getD v 0 ≤ MAX_NUM := hinv.le_max v hv
      omega
  · intro hnreach
    have h1 : dist.getD v 0 ≤ MAX_NUM := hinv.le_max v hv
    by_contra hne
    have h2 : dist.getD v 0 < MAX_NUM := by omega
    exact hnreach ⟨_, hinv.reach v hv h2⟩

/-- The spec's scenario S1: `0→1(3), 1→2(4), 0→2(10)` with expected
distances `[0, 3, 7]`. -/
def gS1 : CSR :=
  ⟨3,
   fun i => ([0, 2, 3, 3] : List ℕ).getD i 0,
   fun e => ([1, 2, 2] : List ℕ).getD e 0,
   fun e => ([3, 10, 4] : List ℕ).getD e 0⟩

theorem reachW_gS1 {v d : ℕ} (h : ReachW gS1 0 v d) :
    (v, d) ∈ ([(0, 0), (1, 3), (2, 7), (2, 10)] : List (ℕ × ℕ)) := by
  induction h with
  | refl => decide
  | step hr hp ih =>
    rename_i u d' v' w
    fin_cases ih
    · rw [show adj gS1 0 = [(1, 3), (2, 10)] from rfl] at hp
      fin_cases hp <;> decide
    · rw [show adj gS1 1 = [(2, 4)] from rfl] at hp
      fin_cases hp
      decide
    · rw [show adj gS1 2 = ([] : List (ℕ × ℕ)) from rfl] at hp
      exact absurd hp (List.not_mem_nil _)
    · rw [show adj gS1 2 = ([] : List (ℕ × ℕ)) from rfl] at hp
      exact absurd hp (List.not_mem_nil _)

theorem gS1_nw : NoWrap gS1 0 := by
  intro u d hr hd p hp
  have h := reachW_gS1 hr
  fin_cases h <;> (revert p; decide)

theorem gS1_fin : ∀ v, Reachable gS1 0 v →
    ∃ dd, ReachW gS1 0 v dd ∧ dd < MAX_NUM := by
  have m01 : ((1 : ℕ), (3 : ℕ)) ∈ adj gS1 0 := by decide
  have m12 : ((2 : ℕ), (4 : ℕ)) ∈ adj gS1 1 := by decide
  have e01 : ReachW gS1 0 1 3 := ReachW.step ReachW.refl m01
  have e12 : ReachW gS1 0 2 7 := ReachW.step e01 m12
  rintro v ⟨d, hd⟩
  have h := reachW_gS1 hd
  fin_cases h
  · exact ⟨0, ReachW.refl, by unfold MAX_NUM; norm_num⟩
  · exact ⟨3, e01, by unfold MAX_NUM; norm_num⟩
  · exact ⟨7, e12, by unfold MAX_NUM; norm_num⟩
  · exact ⟨7, e12, by unfold MAX_NUM; norm_num⟩

theorem gS1_reach2 : Reachable gS1 0 2 :=
  ⟨3 + 4,
   ReachW.step
     (ReachW.step ReachW.refl (show ((1 : ℕ), (3 : ℕ)) ∈ adj gS1 0 by decide))
     (show ((2 : ℕ), (4 : ℕ)) ∈ adj gS1 1 by decide)⟩

/-- Witness for `deltaStepAlgo_dijkstra` on scenario S1: the engine run
terminates with distances `[0, 3, 7]` and the distance of vertex 2 is
its Dijkstra shortest-path distance. -/
theorem deltaStepAlgo_dijkstra_witness :
    engineRun gS1 10 (initState gS1 0) = some [0, 3, 7] ∧
    IsDijkstraDist gS1 0 2 (([0, 3, 7] : List ℕ).getD 2 0) :=
  ⟨rfl,
   ((deltaStepAlgo_dijkstra gS1 0 10 [0, 3, 7] (by decide)
       (by unfold EdgesValid; decide) gS1_nw gS1_fin rfl) 2 (by decide)).1
     gS1_reach2⟩

/-! ## C2 / C6: the partitioner and its encoding

Modelled from the spec: pass 2 of `partition()` is elided in
`session.md` ("... fill in va.deg1, va.deg2, va.PE[], va.offset"), so
the fill pass is modelled from spec §4.2 and the `Partition_Graph.h`
encoding description in `session.md`: per vertex, out-edges are grouped
by destination partition in ascending partition id; each group takes a
pair of `PE` slots, `slot0 = (partition_id << 14) | count`; groups with
`count ≤ 2` pack their `(dst << 18) | weight` edge words inline in
`slot1` (the spec leaves the exact 2-edge interleaving open, §9; the
two 32-bit edge words are packed consecutively), groups with
`count > 2` store a `highedge` offset in `slot1`; the first 7 groups
live in `PE`, the rest spill to the `pledge` array at `offset`.  The
two-pass parallel build with per-thread prefix sums is serialised as a
single pass in vertex order. -/

theorem div_pack (a b m : ℕ) (hm : 0 < m) (h : b < m) : (a * m + b) / m = a := by
  rw [Nat.mul_comm, Nat.mul_add_div hm, Nat.div_eq_of_lt h, Nat.add_zero]

theorem mod_pack (a b m : ℕ) (h : b < m) : (a * m + b) % m = b := by
  rw [Nat.mul_comm, Nat.mul_add_mod, Nat.mod_eq_of_lt h]

theorem getD_append_mid {α : Type} (A B : List α) (j : ℕ) (d : α) :
    (A ++ B).getD (A.length + j) d = B.getD j d := by
  rw [List.getD_eq_getElem?_getD, List.getD_eq_getElem?_getD,
    List.getElem?_append_right (by omega : A.length ≤ A.length + j),
    Nat.add_sub_cancel_left]

/-- One packed edge word: `(dst << 18) | weight`. -/
def packEdge (e : ℕ × ℕ) : ℕ := e.1 * 2 ^ 18 + e.2

/-- Inline packing of an (at most 2 edge) group into `slot1`: the edge
words packed consecutively, first edge lowest. -/
def packInline (es : List (ℕ × ℕ)) : ℕ :=
  es.foldr (fun e acc => acc * 2 ^ 32 + packEdge e) 0

def unpackEdge (x : ℕ) : ℕ × ℕ := (x / 2 ^ 18, x % 2 ^ 18)

/-- Decode `k` inline-packed edges from `slot1`. -/
def unpackInline : ℕ → ℕ → List (ℕ × ℕ)
  | 0, _ => []
  | k + 1, x => unpackEdge (x % 2 ^ 32) :: unpackInline k (x / 2 ^ 32)

theorem unpackInline_packInline (es : List (ℕ × ℕ))
    (hb : ∀ e ∈ es, e.1 < 2 ^ 14 ∧ e.2 < 2 ^ 18) :
    unpackInline es.length (packInline es) = es := by
  induction es with
  | nil => rfl
  | cons e es' ih =>
    obtain ⟨h1, h2⟩ := hb e (List.mem_cons_self _ _)
    have hpe : packEdge e < 2 ^ 32 := by
      unfold packEdge
      have : e.1 * 2 ^ 18 ≤ (2 ^ 14 - 1) * 2 ^ 18 :=
        Nat.mul_le_mul_right _ (by omega)
      have h232 : (2 ^ 14 - 1) * 2 ^ 18 + 2 ^ 18 = 2 ^ 32 := by norm_num
      omega
    have hrw : packInline (e :: es') =
        packInline es' * 2 ^ 32 + packEdge e := rfl
    show unpackEdge (packInline (e :: es') % 2 ^ 32) ::
      unpackInline es'.length (packInline (e :: es') / 2 ^ 32) = e :: es'
    rw [hrw, mod_pack _ _ _ hpe, div_pack _ _ _ (by norm_num) hpe,
      ih (fun x hx => hb x (List.mem_cons_of_mem _ hx))]
    congr 1
    unfold unpackEdge packEdge
    rw [div_pack _ _ _ (by norm_num) h2, mod_pack _ _ _ h2]

/-- The flat `(dst, weight)` word layout of a `highedge` group:
`highedge[off] = dst1, highedge[off+1] = weight1, ...`. -/
def flatPairs : List (ℕ × ℕ) → List ℕ
  | [] => []
  | e :: es => e.1 :: e.2 :: flatPairs es

theorem flatPairs_length (es : List (ℕ × ℕ)) :
    (flatPairs es).length = 2 * es.length := by
  induction es with
  | nil => rfl
  | cons e es ih =>
    show (flatPairs es).length + 1 + 1 = 2 * (e :: es).length
    rw [ih, List.length_cons]
    ring

/-- Read `c` `(dst, weight)` pairs from the `highedge` array starting
at `off`. -/
def readHigh (H : List ℕ) : ℕ → ℕ → List (ℕ × ℕ)
  | _, 0 => []
  | off, c + 1 =>
    (H.getD off 0, H.getD (off + 1) 0) :: readHigh H (off + 2) c

theorem readHigh_flatPairs (es : List (ℕ × ℕ)) :
    ∀ H0 H1 : List ℕ,
      readHigh (H0 ++ flatPairs es ++ H1) H0.length es.length = es := by
  induction es with
  | nil => intro H0 H1; rfl
  | cons e es' ih =>
    intro H0 H1
    show ((H0 ++ flatPairs (e :: es') ++ H1).getD H0.length 0,
          (H0 ++ flatPairs (e :: es') ++ H1).getD (H0.length + 1) 0) ::
        readHigh (H0 ++ flatPairs (e :: es') ++ H1) (H0.length + 2)
          es'.length = e :: es'
    have hfl : flatPairs (e :: es') = e.1 :: e.2 :: flatPairs es' := rfl
    have hsplit : H0 ++ flatPairs (e :: es') ++ H1 =
        (H0 ++ [e.1, e.2]) ++ flatPairs es' ++ H1 := by
      rw [hfl]; simp
    have hlen2 : (H0 ++ [e.1, e.2]).length = H0.length + 2 := by simp
    congr 1
    · have hg1 : (H0 ++ flatPairs (e :: es') ++ H1).getD (H0.length + 0) 0 =
          e.1 := by
        rw [List.append_assoc, getD_append_mid, hfl]
        rfl
      have hg2 : (H0 ++ flatPairs (e :: es') ++ H1).getD (H0.length + 1) 0 =
          e.2 := by
        rw [List.append_assoc, getD_append_mid, hfl]
        rfl
      rw [Nat.add_zero] at hg1
      rw [hg1, hg2]
    · rw [hsplit, ← hlen2]
      exact ih (H0 ++ [e.1, e.2]) H1

/-- `slot0` of a group: `(partition_id << 14) | count`. -/
def encSlot0 (p : ℕ) (es : List (ℕ × ℕ)) : ℕ := p * 2 ^ 14 + es.length

/-- Encode a vertex's group list into its word-pair list and the
`highedge` words it appends, with the `highedge` array currently
`he0` words long. -/
def encodeGroups (he0 : ℕ) : List (ℕ × List (ℕ × ℕ)) → List ℕ × List ℕ
  | [] => ([], [])
  | (p, es) :: gs =>
    if es.length ≤ 2 then
      let r := encodeGroups he0 gs
      (encSlot0 p es :: packInline es :: r.1, r.2)
    else
      let r := encodeGroups (he0 + 2 * es.length) gs
      (encSlot0 p es :: he0 :: r.1, flatPairs es ++ r.2)

theorem encodeGroups_cons_le (he0 p : ℕ) (es : List (ℕ × ℕ))
    (gs : List (ℕ × List (ℕ × ℕ))) (h : es.length ≤ 2) :
    encodeGroups he0 ((p, es) :: gs) =
      (encSlot0 p es :: packInline es :: (encodeGroups he0 gs).1,
       (encodeGroups he0 gs).2) := by
  simp only [encodeGroups]
  rw [if_pos h]

theorem encodeGroups_cons_gt (he0 p : ℕ) (es : List (ℕ × ℕ))
    (gs : List (ℕ × List (ℕ × ℕ))) (h : ¬ es.length ≤ 2) :
    encodeGroups he0 ((p, es) :: gs) =
      (encSlot0 p es :: he0 :: (encodeGroups (he0 + 2 * es.length) gs).1,
       flatPairs es ++ (encodeGroups (he0 + 2 * es.length) gs).2) := by
  simp only [encodeGroups]
  rw [if_neg h]

theorem encodeGroups_words_length (gs : List (ℕ × List (ℕ × ℕ))) :
    ∀ he0, (encodeGroups he0 gs).1.length = 2 * gs.length := by
  induction gs with
  | nil => intro he0; rfl
  | cons pg gs' ih =>
    intro he0
    obtain ⟨p, es⟩ := pg
    by_cases h : es.length ≤ 2
    · rw [encodeGroups_cons_le he0 p es gs' h]
      show (encodeGroups he0 gs').1.length + 1 + 1 = 2 * (gs'.length + 1)
      rw [ih he0]; ring
    · rw [encodeGroups_cons_gt he0 p es gs' h]
      show (encodeGroups (he0 + 2 * es.length) gs').1.length + 1 + 1 =
        2 * (gs'.length + 1)
      rw [ih]; ring

/-- Decode `k` groups from a word-pair list against the global
`highedge` array `H`: `slot0` splits into partition id and count,
`count ≤ 2` groups decode inline, larger groups follow the `highedge`
offset. -/
def decodeGroups (H : List ℕ) : ℕ → List ℕ → List (ℕ × List (ℕ × ℕ))
  | 0, _ => []
  | k + 1, s0 :: s1 :: ws =>
    if s0 % 2 ^ 14 ≤ 2 then
      (s0 / 2 ^ 14, unpackInline (s0 % 2 ^ 14) s1) :: decodeGroups H k ws
    else
      (s0 / 2 ^ 14, readHigh H s1 (s0 % 2 ^ 14)) :: decodeGroups H k ws
  | _ + 1, [] => []
  | _ + 1, [_] => []

/-- Field-width bounds on a group list (§9 of the spec): counts fit in
14 bits, partition ids in 18 bits, inline `dst` in 14 bits, weights in
18 bits. -/
def GroupsBounded (gs : List (ℕ × List (ℕ × ℕ))) : Prop :=
  ∀ pg ∈ gs, pg.1 < 2 ^ 18 ∧ pg.2.length < 2 ^ 14 ∧
    ∀ e ∈ pg.2, e.1 < 2 ^ 14 ∧ e.2 < 2 ^ 18

theorem decodeGroups_encodeGroups (gs : List (ℕ × List (ℕ × ℕ)))
    (hb : GroupsBounded gs) :
    ∀ H0 H1 : List ℕ,
      decodeGroups (H0 ++ (encodeGroups H0.length gs).2 ++ H1)
        gs.length (encodeGroups H0.length gs).1 = gs := by
  induction gs with
  | nil => intro H0 H1; rfl
  | cons pg gs' ih =>
    intro H0 H1
    obtain ⟨p, es⟩ := pg
    obtain ⟨hp18, hc14, he⟩ := hb (p, es) (List.mem_cons_self _ _)
    have hb' : GroupsBounded gs' := fun q hq => hb q (List.mem_cons_of_mem _ hq)
    have hs0div : encSlot0 p es / 2 ^ 14 = p :=
      div_pack _ _ _ (by norm_num) hc14
    have hs0mod : encSlot0 p es % 2 ^ 14 = es.length := mod_pack _ _ _ hc14
    have hdec : ∀ (H : List ℕ) k s0 s1 ws,
        decodeGroups H (k + 1) (s0 :: s1 :: ws) =
        (if s0 % 2 ^ 14 ≤ 2 then
          (s0 / 2 ^ 14, unpackInline (s0 % 2 ^ 14) s1) :: decodeGroups H k ws
         else
          (s0 / 2 ^ 14, readHigh H s1 (s0 % 2 ^ 14)) :: decodeGroups H k ws) :=
      fun _ _ _ _ _ => rfl
    by_cases h : es.length ≤ 2
    · rw [encodeGroups_cons_le H0.length p es gs' h]
      show decodeGroups _ (gs'.length + 1) _ = _
      rw [hdec, hs0mod, if_pos h, hs0div,
        unpackInline_packInline es he, ih hb' H0 H1]
    · rw [encodeGroups_cons_gt H0.length p es gs' h]
      show decodeGroups _ (gs'.length + 1) _ = _
      rw [hdec, hs0mod, if_neg h, hs0div]
      have hassoc : H0 ++ (flatPairs es ++
          (encodeGroups (H0.length + 2 * es.length) gs').2) ++ H1 =
        (H0 ++ flatPairs es) ++
          (encodeGroups (H0.length + 2 * es.length) gs').2 ++ H1 := by
        simp
      have hlen' : (H0 ++ flatPairs es).length = H0.length + 2 * es.length := by
        rw [List.length_append, flatPairs_length]
      congr 1
      · congr 1
        rw [show H0 ++ (flatPairs es ++
            (encodeGroups (H0.length + 2 * es.length) gs').2) ++ H1 =
          H0 ++ flatPairs es ++
            ((encodeGroups (H0.length + 2 * es.length) gs').2 ++ H1) from by
            simp]
        exact readHigh_flatPairs es H0
          ((encodeGroups (H0.length + 2 * es.length) gs').2 ++ H1)
      · rw [hassoc, ← hlen']
        exact ih hb' (H0 ++ flatPairs es) H1

/-- The per-vertex record `vtxArr` from `Partition_Graph.h`:
`deg1`/`deg2` (inline / spilled group counts), the 14 `PE` words, and
the overflow `offset` into `pledge`. -/
structure vtxArr where
  deg1 : ℕ
  deg2 : ℕ
  PE : List ℕ
  offset : ℕ

/-- The destination-partition group list of vertex `v`: for each
partition id in ascending order, the out-edges of `v` targeting that
partition (vertex `dst` belongs to partition `dst / PartSize`); empty
groups are omitted. -/
def groupsOf (g : CSR) (PartSize numPart v : ℕ) :
    List (ℕ × List (ℕ × ℕ)) :=
  (List.range numPart).filterMap (fun p =>
    if ((adj g v).filter (fun e => e.1 / PartSize = p)).isEmpty then none
    else some (p, (adj g v).filter (fun e => e.1 / PartSize = p)))

/-- Encode one vertex (the pass-2 fill for one vertex): its group
pairs in ascending partition order, the first 7 pairs into `PE`
(zero-padded to 14 words), the remaining pairs appended to `pledge`
with the record's `offset` pointing at them; `count > 2` groups append
their edge words to `highedge`. -/
def encodeVertex (g : CSR) (PartSize numPart v : ℕ)
    (st : List vtxArr × List ℕ × List ℕ) :
    List vtxArr × List ℕ × List ℕ :=
  let gs := groupsOf g PartSize numPart v
  let enc := encodeGroups st.2.2.length gs
  let peW := enc.1.take 14
  let plW := enc.1.drop 14
  (st.1 ++ [⟨min gs.length 7, gs.length - min gs.length 7,
     peW ++ List.replicate (14 - peW.length) 0, st.2.1.length⟩],
   st.2.1 ++ plW, st.2.2 ++ enc.2)

/-- The partitioned representation `(plgraph, pledge, highedge)` built
by `partition()` over all vertices. -/
def partitionGraph (g : CSR) (numPart : ℕ) :
    List vtxArr × List ℕ × List ℕ :=
  (List.range g.numV).foldl
    (fun st v => encodeVertex g (partSizeOf g.numV numPart) numPart v st)
    ([], [], [])

/-- The word-pair list of vertex `v` as the reader sees it: `2·deg1`
words from `PE`, then `2·deg2` spilled words from `pledge` at
`offset`. -/
def vertexWords (P : List vtxArr × List ℕ × List ℕ) (v : ℕ) : List ℕ :=
  (P.1.getD v ⟨0, 0, [], 0⟩).PE.take (2 * (P.1.getD v ⟨0, 0, [], 0⟩).deg1) ++
  ((P.2.1.drop (P.1.getD v ⟨0, 0, [], 0⟩).offset).take
    (2 * (P.1.getD v ⟨0, 0, [], 0⟩).deg2))

/-- Decode the group list of vertex `v` from the partitioned form. -/
def decodeVertex (P : List vtxArr × List ℕ × List ℕ) (v : ℕ) :
    List (ℕ × List (ℕ × ℕ)) :=
  decodeGroups P.2.2
    ((P.1.getD v ⟨0, 0, [], 0⟩).deg1 + (P.1.getD v ⟨0, 0, [], 0⟩).deg2)
    (vertexWords P v)

/-- The group-level slot encoding of C6: each group pair holds
`(partition_id << 14) | count` in slot 0; slot 1 is the inline edge
pack exactly when `count ≤ 2` and a `highedge` offset whose words
decode back to the group's edges exactly when `count > 2`. -/
def GroupSlotsOK (H : List ℕ) : List ℕ → List (ℕ × List (ℕ × ℕ)) → Prop
  | [], [] => True
  | s0 :: s1 :: ws, pg :: gs =>
      s0 = pg.1 * 2 ^ 14 + pg.2.length ∧
      (pg.2.length ≤ 2 → s1 = packInline pg.2) ∧
      (2 < pg.2.length → readHigh H s1 pg.2.length = pg.2) ∧
      GroupSlotsOK H ws gs
  | _, _ => False

theorem groupSlotsOK_encodeGroups (gs : List (ℕ × List (ℕ × ℕ))) :
    ∀ H0 H1 : List ℕ,
      GroupSlotsOK (H0 ++ (encodeGroups H0.length gs).2 ++ H1)
        (encodeGroups H0.length gs).1 gs := by
  induction gs with
  | nil => intro H0 H1; trivial
  | cons pg gs' ih =>
    intro H0 H1
    obtain ⟨p, es⟩ := pg
    by_cases h : es.length ≤ 2
    · rw [encodeGroups_cons_le H0.length p es gs' h]
      show _ ∧ _ ∧ _ ∧ _
      exact ⟨rfl, fun _ => rfl,
        fun hgt => absurd (show 2 < es.length from hgt) (by omega),
        ih H0 H1⟩
    · rw [encodeGroups_cons_gt H0.length p es gs' h]
      show _ ∧ _ ∧ _ ∧ _
      refine ⟨rfl, fun hle => absurd hle h, ?_, ?_⟩
      · intro _
        show readHigh (H0 ++ (flatPairs es ++
          (encodeGroups (H0.length + 2 * es.length) gs').2) ++ H1)
          H0.length es.length = es
        rw [show H0 ++ (flatPairs es ++
            (encodeGroups (H0.length + 2 * es.length) gs').2) ++ H1 =
          H0 ++ flatPairs es ++
            ((encodeGroups (H0.length + 2 * es.length) gs').2 ++ H1) from by
            simp]
        exact readHigh_flatPairs es H0 _
      · have hassoc : H0 ++ (flatPairs es ++
            (encodeGroups (H0.length + 2 * es.length) gs').2) ++ H1 =
          (H0 ++ flatPairs es) ++
            (encodeGroups (H0.length + 2 * es.length) gs').2 ++ H1 := by
          simp
        have hlen' : (H0 ++ flatPairs es).length =
            H0.length + 2 * es.length := by
          rw [List.length_append, flatPairs_length]
        rw [hassoc, ← hlen']
        exact ih (H0 ++ flatPairs es) H1

/-- Decode (and slot-encoding) correctness for the most recently
encoded vertex, stable under arbitrary later growth of the three
arrays. -/
theorem encodeVertex_decode (g : CSR) (PartSize numPart : ℕ)
    (vt : List vtxArr) (pl he : List ℕ) (vE : List vtxArr)
    (plE heE : List ℕ) :
    decodeVertex
      ⟨(encodeVertex g PartSize numPart vt.length (vt, pl, he)).1 ++ vE,
       (encodeVertex g PartSize numPart vt.length (vt, pl, he)).2.1 ++ plE,
       (encodeVertex g PartSize numPart vt.length (vt, pl, he)).2.2 ++ heE⟩
      vt.length =
      decodeGroups ((he ++
          (encodeGroups he.length (groupsOf g PartSize numPart vt.length)).2)
          ++ heE)
        (groupsOf g PartSize numPart vt.length).length
        (encodeGroups he.length (groupsOf g PartSize numPart vt.length)).1 ∧
    vertexWords
      ⟨(encodeVertex g PartSize numPart vt.length (vt, pl, he)).1 ++ vE,
       (encodeVertex g PartSize numPart vt.length (vt, pl, he)).2.1 ++ plE,
       (encodeVertex g PartSize numPart vt.length (vt, pl, he)).2.2 ++ heE⟩
      vt.length =
      (encodeGroups he.length (groupsOf g PartSize numPart vt.length)).1 := by
  set gs := groupsOf g PartSize numPart vt.length with hgs
  set enc := encodeGroups he.length gs with henc
  set rec0 : vtxArr := ⟨min gs.length 7, gs.length - min gs.length 7,
    enc.1.take 14 ++ List.replicate (14 - (enc.1.take 14).length) 0,
    pl.length⟩ with hrec
  have hstep : encodeVertex g PartSize numPart vt.length (vt, pl, he) =
      (vt ++ [rec0], pl ++ enc.1.drop 14, he ++ enc.2) := rfl
  have hencL : enc.1.length = 2 * gs.length := by
    rw [henc]; exact encodeGroups_words_length gs he.length
  have hgetrec : ((vt ++ [rec0]) ++ vE).getD vt.length rec0 = rec0 := by
    rw [List.append_assoc]
    have h0 : vt.length = vt.length + 0 := rfl
    rw [h0, getD_append_mid]
    rfl
  have hgetrec' : ∀ d : vtxArr, ((vt ++ [rec0]) ++ vE).getD vt.length d =
      rec0 := by
    intro d
    rw [List.append_assoc]
    have h0 : vt.length = vt.length + 0 := rfl
    rw [h0, getD_append_mid]
    rfl
  have hpeW : (enc.1.take 14).length = min 14 enc.1.length :=
    List.length_take _ _
  have hdeg1 : 2 * (min gs.length 7) = (enc.1.take 14).length := by
    rw [hpeW, hencL]; omega
  have hdeg2 : 2 * (gs.length - min gs.length 7) = (enc.1.drop 14).length := by
    rw [List.length_drop, hencL]; omega
  have hwords : vertexWords
      ⟨(vt ++ [rec0]) ++ vE, (pl ++ enc.1.drop 14) ++ plE, (he ++ enc.2) ++ heE⟩
      vt.length = enc.1 := by
    unfold vertexWords
    rw [hgetrec']
    show (rec0.PE.take (2 * rec0.deg1)) ++
      ((((pl ++ enc.1.drop 14) ++ plE).drop rec0.offset).take
        (2 * rec0.deg2)) = enc.1
    rw [hrec]
    show ((enc.1.take 14 ++ List.replicate (14 - (enc.1.take 14).length) 0).take
        (2 * min gs.length 7)) ++
      ((((pl ++ enc.1.drop 14) ++ plE).drop pl.length).take
        (2 * (gs.length - min gs.length 7))) = enc.1
    rw [hdeg1, List.take_left' rfl, hdeg2]
    rw [List.append_assoc, List.drop_left, List.take_left' rfl]
    exact List.take_append_drop 14 enc.1
  rw [hstep]
  refine ⟨?_, hwords⟩
  unfold decodeVertex
  rw [hwords]
  rw [hgetrec']
  show decodeGroups ((he ++ enc.2) ++ heE) (rec0.deg1 + rec0.deg2) enc.1 = _
  rw [hrec]
  show decodeGroups ((he ++ enc.2) ++ heE)
    (min gs.length 7 + (gs.length - min gs.length 7)) enc.1 = _
  rw [show min gs.length 7 + (gs.length - min gs.length 7) = gs.length from by
    omega]

/-- All vertices encoded so far decode back to their group lists and
carry the C6 slot encoding, stably under any later growth of the three
arrays. -/
def DecOK (g : CSR) (PartSize numPart : ℕ) (vt : List vtxArr)
    (pl he : List ℕ) : Prop :=
  ∀ v < vt.length, ∀ (vE : List vtxArr) (plE heE : List ℕ),
    decodeVertex ⟨vt ++ vE, pl ++ plE, he ++ heE⟩ v =
      groupsOf g PartSize numPart v ∧
    GroupSlotsOK (he ++ heE)
      (vertexWords ⟨vt ++ vE, pl ++ plE, he ++ heE⟩ v)
      (groupsOf g PartSize numPart v)

theorem encodeVertex_DecOK (g : CSR) (PartSize numPart : ℕ)
    (vt : List vtxArr) (pl he : List ℕ)
    (hb : GroupsBounded (groupsOf g PartSize numPart vt.length))
    (hok : DecOK g PartSize numPart vt pl he) :
    DecOK g PartSize numPart
      (encodeVertex g PartSize numPart vt.length (vt, pl, he)).1
      (encodeVertex g PartSize numPart vt.length (vt, pl, he)).2.1
      (encodeVertex g PartSize numPart vt.length (vt, pl, he)).2.2 := by
  intro v hv vE plE heE
  set gs := groupsOf g PartSize numPart vt.length with hgs
  set enc := encodeGroups he.length gs with henc
  have hlen1 : (encodeVertex g PartSize numPart vt.length (vt, pl, he)).1.length
      = vt.length + 1 := by
    show (vt ++ [_]).length = vt.length + 1
    simp
  rw [hlen1] at hv
  by_cases hveq : v = vt.length
  · subst hveq
    obtain ⟨hdec, hwords⟩ :=
      encodeVertex_decode g PartSize numPart vt pl he vE plE heE
    constructor
    · rw [hdec, ← hgs, ← henc]
      have := decodeGroups_encodeGroups gs hb he heE
      rw [← henc] at this
      exact this
    · have hslots := groupSlotsOK_encodeGroups gs he heE
      rw [← henc] at hslots
      have hwords' := hwords
      rw [← hgs, ← henc] at hwords'
      rw [hwords']
      show GroupSlotsOK ((he ++ enc.2) ++ heE) enc.1 gs
      exact hslots
  · have hvlt : v < vt.length := by omega
    have hstep : encodeVertex g PartSize numPart vt.length (vt, pl, he) =
        (vt ++ [⟨min gs.length 7, gs.length - min gs.length 7,
           enc.1.take 14 ++ List.replicate (14 - (enc.1.take 14).length) 0,
           pl.length⟩],
         pl ++ enc.1.drop 14, he ++ enc.2) := rfl
    rw [hstep]
    show decodeVertex ⟨(vt ++ _) ++ vE, (pl ++ _) ++ plE, (he ++ _) ++ heE⟩ v =
        _ ∧ GroupSlotsOK ((he ++ _) ++ heE) _ _
    rw [List.append_assoc vt, List.append_assoc pl, List.append_assoc he]
    exact hok v hvlt _ _ _

theorem foldEnc_DecOK (g : CSR) (PartSize numPart : ℕ) (m : ℕ) :
    ∀ (vt : List vtxArr) (pl he : List ℕ),
      (∀ v, vt.length ≤ v → v < vt.length + m →
        GroupsBounded (groupsOf g PartSize numPart v)) →
      DecOK g PartSize numPart vt pl he →
      ((List.range' vt.length m).foldl
        (fun st v => encodeVertex g PartSize numPart v st)
        (vt, pl, he)).1.length = vt.length + m ∧
      DecOK g PartSize numPart
        ((List.range' vt.length m).foldl
          (fun st v => encodeVertex g PartSize numPart v st) (vt, pl, he)).1
        ((List.range' vt.length m).foldl
          (fun st v => encodeVertex g PartSize numPart v st) (vt, pl, he)).2.1
        ((List.range' vt.length m).foldl
          (fun st v => encodeVertex g PartSize numPart v st) (vt, pl, he)).2.2 := by
  induction m with
  | zero =>
    intro vt pl he _ hok
    exact ⟨rfl, hok⟩
  | succ m ih =>
    intro vt pl he hb hok
    set gs := groupsOf g PartSize numPart vt.length with hgs
    set enc := encodeGroups he.length gs with henc
    have hstep : encodeVertex g PartSize numPart vt.length (vt, pl, he) =
        (vt ++ [⟨min gs.length 7, gs.length - min gs.length 7,
           enc.1.take 14 ++ List.replicate (14 - (enc.1.take 14).length) 0,
           pl.length⟩],
         pl ++ enc.1.drop 14, he ++ enc.2) := rfl
    have hok1 := encodeVertex_DecOK g PartSize numPart vt pl he
      (hb vt.length (le_refl _) (by omega)) hok
    rw [hstep] at hok1
    have hlen1 : (vt ++ [(⟨min gs.length 7, gs.length - min gs.length 7,
        enc.1.take 14 ++ List.replicate (14 - (enc.1.take 14).length) 0,
        pl.length⟩ : vtxArr)]).length = vt.length + 1 := by simp
    have hfold : (List.range' vt.length (m + 1)).foldl
        (fun st v => encodeVertex g PartSize numPart v st) (vt, pl, he) =
      (List.range' (vt.length + 1) m).foldl
        (fun st v => encodeVertex g PartSize numPart v st)
        (vt ++ [⟨min gs.length 7, gs.length - min gs.length 7,
           enc.1.take 14 ++ List.replicate (14 - (enc.1.take 14).length) 0,
           pl.length⟩],
         pl ++ enc.1.drop 14, he ++ enc.2) := by
      rw [List.range'_succ, List.foldl_cons, hstep]
    have hb' : ∀ v, (vt ++ [(⟨min gs.length 7, gs.length - min gs.length 7,
        enc.1.take 14 ++ List.replicate (14 - (enc.1.take 14).length) 0,
        pl.length⟩ : vtxArr)]).length ≤ v →
        v < (vt ++ [(⟨min gs.length 7, gs.length - min gs.length 7,
          enc.1.take 14 ++ List.replicate (14 - (enc.1.take 14).length) 0,
          pl.length⟩ : vtxArr)]).length + m →
        GroupsBounded (groupsOf g PartSize numPart v) := by
      intro v h1 h2
      rw [hlen1] at h1 h2
      exact hb v (by omega) (by omega)
    obtain ⟨ilen, iok⟩ := ih _ (pl ++ enc.1.drop 14) (he ++ enc.2) hb' hok1
    rw [hlen1] at ilen
    constructor
    · rw [hfold]
      rw [show (List.range' (vt.length + 1) m) =
        (List.range' ((vt ++ [(⟨min gs.length 7, gs.length - min gs.length 7,
          enc.1.take 14 ++ List.replicate (14 - (enc.1.take 14).length) 0,
          pl.length⟩ : vtxArr)]).length) m) from by rw [hlen1]]
      rw [show vt.length + (m + 1) = vt.length + 1 + m from by omega]
      rw [← hlen1]
      exact (ih _ (pl ++ enc.1.drop 14) (he ++ enc.2) hb' hok1).1
    · rw [hfold]
      rw [show (List.range' (vt.length + 1) m) =
        (List.range' ((vt ++ [(⟨min gs.length 7, gs.length - min gs.length 7,
          enc.1.take 14 ++ List.replicate (14 - (enc.1.take 14).length) 0,
          pl.length⟩ : vtxArr)]).length) m) from by rw [hlen1]]
      exact iok

theorem partitionGraph_decode (g : CSR) (numPart : ℕ)
    (hb : ∀ v < g.numV,
      GroupsBounded (groupsOf g (partSizeOf g.numV numPart) numPart v)) :
    (partitionGraph g numPart).1.length = g.numV ∧
    ∀ v < g.numV,
      decodeVertex (partitionGraph g numPart) v =
        groupsOf g (partSizeOf g.numV numPart) numPart v ∧
      GroupSlotsOK (partitionGraph g numPart).2.2
        (vertexWords (partitionGraph g numPart) v)
        (groupsOf g (partSizeOf g.numV numPart) numPart v) := by
  have h0 : DecOK g (partSizeOf g.numV numPart) numPart [] [] [] := by
    intro v hv
    exact absurd hv (by simp)
  have hb' : ∀ v, ([] : List vtxArr).length ≤ v →
      v < ([] : List vtxArr).length + g.numV →
      GroupsBounded (groupsOf g (partSizeOf g.numV numPart) numPart v) := by
    intro v _ h2
    exact hb v (by simpa using h2)
  obtain ⟨hlen, hok⟩ :=
    foldEnc_DecOK g (partSizeOf g.numV numPart) numPart g.numV [] [] [] hb' h0
  have hpg : partitionGraph g numPart =
      (List.range' ([] : List vtxArr).length g.numV).foldl
        (fun st v => encodeVertex g (partSizeOf g.numV numPart) numPart v st)
        ([], [], []) := by
    unfold partitionGraph
    rw [show ([] : List vtxArr).length = 0 from rfl, ← List.range_eq_range']
  constructor
  · rw [hpg]
    simpa using hlen
  · intro v hv
    rw [hpg]
    have hv' : v < ((List.range' ([] : List vtxArr).length g.numV).foldl
        (fun st v => encodeVertex g (partSizeOf g.numV numPart) numPart v st)
        ([], [], [])).1.length := by
      rw [hlen]
      simpa using hv
    have := hok v hv' [] [] []
    simpa using this

/-! ## groupsOf characterisation and the partition permutation -/

theorem partSize_pos (numV p : ℕ) (h1 : 1 ≤ numV) (h2 : 1 ≤ p) :
    1 ≤ partSizeOf numV p := by
  unfold partSizeOf
  rw [Nat.le_div_iff_mul_le (by omega)]
  omega

theorem partSize_mul_ge (numV p : ℕ) (h2 : 1 ≤ p) :
    numV ≤ partSizeOf numV p * p := by
  unfold partSizeOf
  have hdm := Nat.div_add_mod (numV + p - 1) p
  have hlt : (numV + p - 1) % p < p := Nat.mod_lt _ (by omega)
  rw [Nat.mul_comm]
  omega

/-- Every member of `groupsOf` is the nonempty per-partition filter of
the adjacency list, tagged with a partition id below `numPart`. -/
theorem groupsOf_mem (g : CSR) (PartSize numPart v : ℕ)
    {pg : ℕ × List (ℕ × ℕ)} (h : pg ∈ groupsOf g PartSize numPart v) :
    pg.1 < numPart ∧
    pg.2 = (adj g v).filter (fun e => e.1 / PartSize = pg.1) ∧
    pg.2 ≠ [] := by
  unfold groupsOf at h
  obtain ⟨q, hq, hfq⟩ := List.mem_filterMap.mp h
  by_cases hemp : ((adj g v).filter (fun e => e.1 / PartSize = q)).isEmpty = true
  · rw [if_pos hemp] at hfq
    exact absurd hfq (by simp)
  · rw [if_neg hemp] at hfq
    obtain rfl := Option.some.inj hfq
    refine ⟨List.mem_range.mp hq, rfl, ?_⟩
    simpa using hemp

theorem filterMap_fst_sublist {α : Type} (f : ℕ → Option (ℕ × α))
    (hf : ∀ q pg, f q = some pg → pg.1 = q) :
    ∀ l : List ℕ, List.Sublist ((l.filterMap f).map Prod.fst) l := by
  intro l
  induction l with
  | nil => simp
  | cons q l2 ih =>
    cases hfq : f q with
    | none =>
      rw [List.filterMap_cons, hfq]
      exact ih.cons q
    | some pg =>
      rw [List.filterMap_cons, hfq, List.map_cons, hf q pg hfq]
      exact ih.cons₂ q

/-- The partition ids of `groupsOf` are strictly increasing. -/
theorem groupsOf_pids_sorted (g : CSR) (PartSize numPart v : ℕ) :
    List.Pairwise (· < ·) ((groupsOf g PartSize numPart v).map Prod.fst) := by
  have hsub : List.Sublist ((groupsOf g PartSize numPart v).map Prod.fst)
      (List.range numPart) := by
    unfold groupsOf
    refine filterMap_fst_sublist _ ?_ _
    intro q pg hfq
    by_cases hemp :
        ((adj g v).filter (fun e => e.1 / PartSize = q)).isEmpty = true
    · rw [if_pos hemp] at hfq
      exact absurd hfq (by simp)
    · rw [if_neg hemp] at hfq
      obtain rfl := Option.some.inj hfq
      rfl
  exact List.Pairwise.sublist hsub (List.pairwise_lt_range numPart)

theorem flatMap_congr_mem {α β : Type} (l : List α) (f f2 : α → List β)
    (h : ∀ a ∈ l, f a = f2 a) : l.flatMap f = l.flatMap f2 := by
  induction l with
  | nil => rfl
  | cons a l2 ih =>
    rw [List.flatMap_cons, List.flatMap_cons, h a (List.mem_cons_self a l2),
      ih (fun b hb => h b (List.mem_cons_of_mem a hb))]

theorem flatMap_perm_congr {α β : Type} (l : List α) (f f2 : α → List β)
    (h : ∀ a ∈ l, List.Perm (f a) (f2 a)) :
    List.Perm (l.flatMap f) (l.flatMap f2) := by
  induction l with
  | nil => exact List.Perm.refl _
  | cons a l2 ih =>
    rw [List.flatMap_cons, List.flatMap_cons]
    exact List.Perm.append (h a (List.mem_cons_self a l2))
      (ih (fun b hb => h b (List.mem_cons_of_mem a hb)))

/-- Concatenating the nonempty per-key groups kept by `groupsOf`
yields the same list as concatenating all per-key filters. -/
theorem flatMap_snd_filterMap (F : ℕ → List (ℕ × ℕ)) :
    ∀ l : List ℕ,
      ((l.filterMap (fun p =>
          if (F p).isEmpty then none else some (p, F p))).flatMap
        Prod.snd) = l.flatMap F := by
  intro l
  induction l with
  | nil => rfl
  | cons q l2 ih =>
    by_cases hemp : (F q).isEmpty = true
    · have hnone : (if (F q).isEmpty then none
          else some (q, F q)) = (none : Option (ℕ × List (ℕ × ℕ))) :=
        if_pos hemp
      rw [List.filterMap_cons, hnone, List.flatMap_cons,
        show F q = [] from by simpa using hemp, List.nil_append]
      exact ih
    · have hsome : (if (F q).isEmpty then none
          else some (q, F q)) = some (q, F q) := if_neg hemp
      rw [List.filterMap_cons, hsome, List.flatMap_cons, List.flatMap_cons, ih]

/-- Partitioning a list by a key with values below `n` and
concatenating the per-key filters in key order is a permutation of the
original list. -/
theorem flatMap_filter_perm (k : ℕ × ℕ → ℕ) (n : ℕ) :
    ∀ l : List (ℕ × ℕ), (∀ e ∈ l, k e < n) →
      List.Perm
        ((List.range n).flatMap (fun p => l.filter (fun e => k e = p))) l := by
  intro l
  induction l with
  | nil =>
    intro _
    have hz : ∀ p ∈ List.range n,
        (([] : List (ℕ × ℕ)).filter (fun e => k e = p)) =
          (fun _ : ℕ => ([] : List (ℕ × ℕ))) p := by
      intro p _
      rfl
    rw [flatMap_congr_mem _ _ _ hz]
    simp
  | cons e l2 ih =>
    intro hb
    have hke : k e < n := hb e (List.mem_cons_self e l2)
    obtain ⟨A, B, hsplit⟩ := List.append_of_mem (List.mem_range.mpr hke)
    have hnd : (A ++ k e :: B).Nodup := by
      rw [← hsplit]
      exact List.nodup_range n
    have hnd2 : (k e :: (A ++ B)).Nodup := List.perm_middle.nodup hnd
    have hnm : k e ∉ A ++ B := (List.nodup_cons.mp hnd2).1
    have hfe : ∀ p, p ≠ k e →
        (e :: l2).filter (fun x => k x = p) =
          l2.filter (fun x => k x = p) := by
      intro p hp
      simp only [List.filter_cons, decide_eq_true_eq]
      rw [if_neg (fun hh => hp (Eq.symm hh))]
    have hA : A.flatMap (fun p => (e :: l2).filter (fun x => k x = p)) =
        A.flatMap (fun p => l2.filter (fun x => k x = p)) :=
      flatMap_congr_mem _ _ _ (fun p hp =>
        hfe p (fun heq => hnm (heq ▸ List.mem_append_left B hp)))
    have hB : B.flatMap (fun p => (e :: l2).filter (fun x => k x = p)) =
        B.flatMap (fun p => l2.filter (fun x => k x = p)) :=
      flatMap_congr_mem _ _ _ (fun p hp =>
        hfe p (fun heq => hnm (heq ▸ List.mem_append_right A hp)))
    have hkf : (e :: l2).filter (fun x => k x = k e) =
        e :: l2.filter (fun x => k x = k e) := by
      simp only [List.filter_cons, decide_eq_true_eq]
      simp
    have hb2 : ∀ x ∈ l2, k x < n := fun x hx =>
      hb x (List.mem_cons_of_mem e hx)
    rw [hsplit, List.flatMap_append, List.flatMap_cons, hA, hB, hkf,
      List.cons_append]
    refine List.Perm.trans List.perm_middle ?_
    refine List.Perm.cons e ?_
    have hjoin : (List.range n).flatMap
        (fun p => l2.filter (fun x => k x = p)) =
        A.flatMap (fun p => l2.filter (fun x => k x = p)) ++
        (l2.filter (fun x => k x = k e) ++
         B.flatMap (fun p => l2.filter (fun x => k x = p))) := by
      rw [hsplit, List.flatMap_append, List.flatMap_cons]
    rw [← hjoin]
    exact ih hb2

/-- The §9 field-width side conditions (vertex ids in 14 bits,
partition ids and weights in 18 bits, group counts in 14 bits) hold
for every vertex's group list when the graph itself satisfies them. -/
theorem groupsBounded_of (g : CSR) (numPart : ℕ) (hval : EdgesValid g)
    (h14 : g.numV ≤ 2 ^ 14) (h18 : numPart ≤ 2 ^ 18)
    (hw : ∀ u < g.numV, ∀ p ∈ adj g u, p.2 < 2 ^ 18)
    (hdeg : ∀ u < g.numV, (adj g u).length < 2 ^ 14) :
    ∀ v < g.numV,
      GroupsBounded (groupsOf g (partSizeOf g.numV numPart) numPart v) := by
  intro v hv pg hpg
  obtain ⟨hlt, hfg, -⟩ := groupsOf_mem g _ numPart v hpg
  refine ⟨lt_of_lt_of_le hlt h18, ?_, ?_⟩
  · rw [hfg]
    exact lt_of_le_of_lt (List.length_filter_le _ _) (hdeg v hv)
  · intro e he
    rw [hfg] at he
    have hadj : e ∈ adj g v := List.mem_of_mem_filter he
    exact ⟨lt_of_lt_of_le (hval v hv e hadj) h14, hw v hv e hadj⟩

/-- C2: For every CSR graph (with in-range edge destinations and the
§9 field widths: `numV ≤ 2^14`, `numPart ≤ 2^18`, weights `< 2^18`,
out-degrees `< 2^14`) and every `numPart ≥ 1`, decoding every group of
every vertex of the partitioned representation built by `partition()`
yields the same multiset of `(src, dst, weight)` triples as the input
CSR: the concatenation over all vertices of the decoded group edges,
tagged with their source, is a permutation of the CSR edge list. -/
theorem partition_roundtrip (g : CSR) (numPart : ℕ)
    (h1 : 1 ≤ g.numV) (h2 : 1 ≤ numPart) (hval : EdgesValid g)
    (h14 : g.numV ≤ 2 ^ 14) (h18 : numPart ≤ 2 ^ 18)
    (hw : ∀ u < g.numV, ∀ p ∈ adj g u, p.2 < 2 ^ 18)
    (hdeg : ∀ u < g.numV, (adj g u).length < 2 ^ 14) :
    List.Perm
      ((List.range g.numV).flatMap (fun v =>
        ((decodeVertex (partitionGraph g numPart) v).flatMap Prod.snd).map
          (fun e => (v, e.1, e.2))))
      ((List.range g.numV).flatMap (fun v =>
        (adj g v).map (fun e => (v, e.1, e.2)))) := by
  have hps : 1 ≤ partSizeOf g.numV numPart := partSize_pos g.numV numPart h1 h2
  have hmul : g.numV ≤ partSizeOf g.numV numPart * numPart :=
    partSize_mul_ge g.numV numPart h2
  obtain ⟨-, hdec⟩ := partitionGraph_decode g numPart
    (groupsBounded_of g numPart hval h14 h18 hw hdeg)
  refine flatMap_perm_congr _ _ _ ?_
  intro v hv
  have hv2 : v < g.numV := List.mem_range.mp hv
  obtain ⟨hdv, -⟩ := hdec v hv2
  rw [hdv]
  refine List.Perm.map _ ?_
  have hflat : (groupsOf g (partSizeOf g.numV numPart) numPart v).flatMap
      Prod.snd =
      (List.range numPart).flatMap
        (fun p => (adj g v).filter
          (fun e => e.1 / partSizeOf g.numV numPart = p)) := by
    unfold groupsOf
    exact flatMap_snd_filterMap
      (fun p => (adj g v).filter
        (fun e => e.1 / partSizeOf g.numV numPart = p))
      (List.range numPart)
  rw [hflat]
  refine flatMap_filter_perm _ numPart (adj g v) ?_
  intro e he
  have he1 : e.1 < g.numV := hval v hv2 e he
  rw [Nat.div_lt_iff_lt_mul hps]
  exact lt_of_lt_of_le he1 (hmul.trans_eq (Nat.mul_comm _ _))

/-- Witness for `partition_roundtrip`: on the scenario-S1 graph with
2 partitions, the decoded triples are a permutation of the CSR
triples. -/
theorem partition_roundtrip_witness :
    List.Perm
      ((List.range gS1.numV).flatMap (fun v =>
        ((decodeVertex (partitionGraph gS1 2) v).flatMap Prod.snd).map
          (fun e => (v, e.1, e.2))))
      ((List.range gS1.numV).flatMap (fun v =>
        (adj gS1 v).map (fun e => (v, e.1, e.2)))) :=
  partition_roundtrip gS1 2 (by decide) (by decide)
    (by unfold EdgesValid; decide) (by decide) (by decide)
    (by decide) (by decide)

/-- C6: For every vertex of the partitioned representation (same
field-width side conditions as C2), the decoded groups are emitted in
strictly ascending partition-id order; every group is nonempty, its
partition id is below `numPart`, and every edge in it targets that
group's partition (`dst / PartSize = partition_id`); and the group
slots satisfy the §3 encoding: slot 0 is `(partition_id << 14) | count`,
slot 1 is the inline `(dst << 18) | weight` pack exactly when
`count ≤ 2`, and a `highedge` offset whose words decode back to the
group's edges exactly when `count > 2`. -/
theorem partition_group_encoding (g : CSR) (numPart : ℕ)
    (hval : EdgesValid g)
    (h14 : g.numV ≤ 2 ^ 14) (h18 : numPart ≤ 2 ^ 18)
    (hw : ∀ u < g.numV, ∀ p ∈ adj g u, p.2 < 2 ^ 18)
    (hdeg : ∀ u < g.numV, (adj g u).length < 2 ^ 14)
    (v : ℕ) (hv : v < g.numV) :
    List.Pairwise (· < ·)
      ((decodeVertex (partitionGraph g numPart) v).map Prod.fst) ∧
    (∀ pg ∈ decodeVertex (partitionGraph g numPart) v,
      pg.2 ≠ [] ∧ pg.1 < numPart ∧
      ∀ e ∈ pg.2, e.1 / partSizeOf g.numV numPart = pg.1) ∧
    GroupSlotsOK (partitionGraph g numPart).2.2
      (vertexWords (partitionGraph g numPart) v)
      (decodeVertex (partitionGraph g numPart) v) := by
  obtain ⟨-, hdec⟩ := partitionGraph_decode g numPart
    (groupsBounded_of g numPart hval h14 h18 hw hdeg)
  obtain ⟨hdv, hslots⟩ := hdec v hv
  rw [hdv]
  refine ⟨groupsOf_pids_sorted g _ numPart v, ?_, hslots⟩
  intro pg hpg
  obtain ⟨hlt, hfg, hne⟩ := groupsOf_mem g _ numPart v hpg
  refine ⟨hne, hlt, ?_⟩
  intro e he
  rw [hfg] at he
  simpa using List.of_mem_filter he

/-- Witness for `partition_group_encoding`: vertex 0 of the
scenario-S1 graph partitioned into 2 parts. -/
theorem partition_group_encoding_witness :
    List.Pairwise (· < ·)
      ((decodeVertex (partitionGraph gS1 2) 0).map Prod.fst) ∧
    (∀ pg ∈ decodeVertex (partitionGraph gS1 2) 0,
      pg.2 ≠ [] ∧ pg.1 < 2 ∧
      ∀ e ∈ pg.2, e.1 / partSizeOf gS1.numV 2 = pg.1) ∧
    GroupSlotsOK (partitionGraph gS1 2).2.2
      (vertexWords (partitionGraph gS1 2) 0)
      (decodeVertex (partitionGraph gS1 2) 0) :=
  partition_group_encoding gS1 2
    (by unfold EdgesValid; decide) (by decide) (by decide)
    (by decide) (by decide) 0 (by decide)

end Corograph
